import Mathlib

/-!
# Rotation algebra and FoV visibility (Quaternion.hpp, AreaSet.hpp)

A shallow embedding of `IMT::Vector`, `IMT::Quaternion`, `IMT::Area` and
`IMT::AreaSet` over exact real arithmetic (`SCALAR = double` is read as `ℝ`, `unsigned`
as the natural numbers modulo `2^32`), followed by the properties established about
them.  Every definition follows the C++ member of the same name;
C++ operators are given the names `opAdd`, `opMul`, ... and the doc comment of each
definition quotes the operator it embeds.

A quotient by zero has no real value.  The properties of `Vector` and `Quaternion`
operations are stated where the divisor is not zero; where a property reaches a zero
divisor the definition makes the outcome explicit: `Quaternion.RotationChecked` and
`atan2Checked` (no value), `AreaSet.surfaceQuotient` (an infinite double).
-/

namespace IMT

/-! ## `class Vector` (Quaternion.hpp, lines 10-70) -/

/-- The class `Vector`: three scalars `m_x`, `m_y`, `m_z`. -/
structure Vector where
  m_x : ℝ
  m_y : ℝ
  m_z : ℝ

/-- The default constructor `Vector(void)`: the zero vector. -/
def Vector.zero : Vector := ⟨0, 0, 0⟩

/-- `DotProduct(v)`: `m_x*v.m_x + m_y*v.m_y + m_z*v.m_z`. -/
def Vector.DotProduct (a v : Vector) : ℝ :=
  a.m_x * v.m_x + a.m_y * v.m_y + a.m_z * v.m_z

/-- `Norm()`: `sqrt(DotProduct(*this))`. -/
noncomputable def Vector.Norm (a : Vector) : ℝ :=
  Real.sqrt (a.DotProduct a)

/-- `operator+(const Vector&)`. -/
def Vector.opAdd (a v : Vector) : Vector :=
  ⟨a.m_x + v.m_x, a.m_y + v.m_y, a.m_z + v.m_z⟩

/-- Unary `operator-(void)`. -/
def Vector.opNeg (a : Vector) : Vector :=
  ⟨-a.m_x, -a.m_y, -a.m_z⟩

/-- Binary `operator-(const Vector&)`. -/
def Vector.opSub (a v : Vector) : Vector :=
  ⟨a.m_x - v.m_x, a.m_y - v.m_y, a.m_z - v.m_z⟩

/-- `operator*(const SCALAR& s)`: `Vector(s*m_x, s*m_y, s*m_z)`. -/
def Vector.opMulScalar (a : Vector) (s : ℝ) : Vector :=
  ⟨s * a.m_x, s * a.m_y, s * a.m_z⟩

/-- `operator/(const SCALAR& s)`: `Vector(m_x/s, m_y/s, m_z/s)`. -/
noncomputable def Vector.opDivScalar (a : Vector) (s : ℝ) : Vector :=
  ⟨a.m_x / s, a.m_y / s, a.m_z / s⟩

/-- `operator*(const Vector& v)`, the dot product: `DotProduct(v)`. -/
def Vector.opMul (a v : Vector) : ℝ :=
  a.DotProduct v

/-- `operator^(const Vector& v)`, the vector product. -/
def Vector.opXor (a v : Vector) : Vector :=
  ⟨a.m_y * v.m_z - a.m_z * v.m_y,
   a.m_z * v.m_x - a.m_x * v.m_z,
   a.m_x * v.m_y - a.m_y * v.m_x⟩

/-- `VectorProduct(v)`: `(*this)^v`. -/
def Vector.VectorProduct (a v : Vector) : Vector :=
  a.opXor v

/-- `FromSpherical(theta, phi)`: `(sinP*cos(theta), sinP*sin(theta), cos(phi))`. -/
noncomputable def Vector.FromSpherical (theta phi : ℝ) : Vector :=
  let sinP := Real.sin phi
  ⟨sinP * Real.cos theta, sinP * Real.sin theta, Real.cos phi⟩

/-- The free `operator*(const SCALAR& s, const Vector& v)`: `v * s`. -/
def scalarMulVector (s : ℝ) (v : Vector) : Vector :=
  v.opMulScalar s

/-! ## `class Quaternion` (Quaternion.hpp, lines 78-280) -/

/-- The class `Quaternion`: scalar part, vector part and the cached flag. -/
structure Quaternion where
  m_w : ℝ
  m_v : Vector
  m_isNormalized : Bool

/-- The constructor `Quaternion(void)`. -/
def Quaternion.default : Quaternion := ⟨0, Vector.zero, false⟩

/-- The constructor `Quaternion(const SCALAR& w, const Vector& v)`. -/
def Quaternion.ofWV (w : ℝ) (v : Vector) : Quaternion := ⟨w, v, false⟩

/-- The constructor `Quaternion(const SCALAR& w)`. -/
def Quaternion.ofW (w : ℝ) : Quaternion := ⟨w, Vector.zero, false⟩

/-- The constructor `Quaternion(const Vector& v)`. -/
def Quaternion.ofV (v : Vector) : Quaternion := ⟨0, v, false⟩

/-- `DotProduct(q)`: `m_w*q.m_w + m_v.DotProduct(q.m_v)`. -/
def Quaternion.DotProduct (a q : Quaternion) : ℝ :=
  a.m_w * q.m_w + a.m_v.DotProduct q.m_v

/-- `Norm()`: `sqrt(DotProduct(*this))`. -/
noncomputable def Quaternion.Norm (a : Quaternion) : ℝ :=
  Real.sqrt (a.DotProduct a)

/-- `operator+(const Quaternion&)`. -/
def Quaternion.opAdd (a q : Quaternion) : Quaternion :=
  Quaternion.ofWV (a.m_w + q.m_w) (a.m_v.opAdd q.m_v)

/-- Binary `operator-(const Quaternion&)`. -/
def Quaternion.opSub (a q : Quaternion) : Quaternion :=
  Quaternion.ofWV (a.m_w - q.m_w) (a.m_v.opSub q.m_v)

/-- Unary `operator-(void)`. -/
def Quaternion.opNeg (a : Quaternion) : Quaternion :=
  Quaternion.ofWV (-a.m_w) a.m_v.opNeg

/-- `operator*(const Quaternion& q)`, the Hamilton product:
`Quaternion((m_w*q.m_w) - (m_v*q.m_v), (m_w*q.m_v) + (q.m_w*m_v) + (m_v ^ q.m_v))`. -/
def Quaternion.opMul (a q : Quaternion) : Quaternion :=
  Quaternion.ofWV ((a.m_w * q.m_w) - (a.m_v.opMul q.m_v))
    (((scalarMulVector a.m_w q.m_v).opAdd (scalarMulVector q.m_w a.m_v)).opAdd
      (a.m_v.opXor q.m_v))

/-- `operator*(SCALAR s)`: `Quaternion(m_w*s, m_v*s)`. -/
def Quaternion.opMulScalar (a : Quaternion) (s : ℝ) : Quaternion :=
  Quaternion.ofWV (a.m_w * s) (a.m_v.opMulScalar s)

/-- `operator/(const SCALAR& s)`: `Quaternion(m_w/s, m_v/s)`. -/
noncomputable def Quaternion.opDivScalar (a : Quaternion) (s : ℝ) : Quaternion :=
  Quaternion.ofWV (a.m_w / s) (a.m_v.opDivScalar s)

/-- The copy assignment `operator=(const Quaternion& q)`: it writes `m_w` and `m_v`
of the receiver and leaves the receiver's `m_isNormalized` as it was. -/
def Quaternion.opAssign (a q : Quaternion) : Quaternion :=
  { a with m_w := q.m_w, m_v := q.m_v }

/-- `operator==(const Quaternion& q)`: `m_w == q.m_w && m_v == q.m_v`; the flag is
not compared. -/
def Quaternion.opEq (a q : Quaternion) : Prop :=
  a.m_w = q.m_w ∧ a.m_v = q.m_v

/-- `Normalize()`: when the flag is unset, `*this = *this / Norm()` and the flag is
set; otherwise nothing happens.  The receiver after the call is returned. -/
noncomputable def Quaternion.Normalize (a : Quaternion) : Quaternion :=
  if a.m_isNormalized then a
  else { a.opAssign (a.opDivScalar a.Norm) with m_isNormalized := true }

/-- `GetW()`. -/
def Quaternion.GetW (a : Quaternion) : ℝ := a.m_w

/-- `GetV()`. -/
def Quaternion.GetV (a : Quaternion) : Vector := a.m_v

/-- `Conj()`: `Quaternion(m_w, -m_v)`. -/
def Quaternion.Conj (a : Quaternion) : Quaternion :=
  Quaternion.ofWV a.m_w a.m_v.opNeg

/-- `Inv()`: `m_isNormalized ? Conj() : Conj()/std::pow(Norm(),2)`. -/
noncomputable def Quaternion.Inv (a : Quaternion) : Quaternion :=
  if a.m_isNormalized then a.Conj else a.Conj.opDivScalar (a.Norm ^ 2)

/-- The free `operator*(const Quaternion& q, const Vector& v)`: `q * Quaternion(v)`. -/
def quaternionMulVector (q : Quaternion) (v : Vector) : Quaternion :=
  q.opMul (Quaternion.ofV v)

/-- `Rotation(v)`: with the flag set, `((*this)*v*(this->Conj())).GetV()`; otherwise
a copy of the receiver is normalized first and used in its place. -/
noncomputable def Quaternion.Rotation (a : Quaternion) (v : Vector) : Vector :=
  if a.m_isNormalized then
    ((quaternionMulVector a v).opMul a.Conj).GetV
  else
    let q := a.Normalize
    ((quaternionMulVector q v).opMul q.Conj).GetV

/-- `Exp(q)`: `Quaternion(cos(normV)*expW, normV != 0 ? sin(normV) * (q.m_v / normV) : q.m_v)`
with `expW = exp(q.m_w)` and `normV = q.m_v.Norm()`. -/
noncomputable def Quaternion.Exp (q : Quaternion) : Quaternion :=
  let expW := Real.exp q.m_w
  let normV := q.m_v.Norm
  Quaternion.ofWV (Real.cos normV * expW)
    (if normV ≠ 0 then scalarMulVector (Real.sin normV) (q.m_v.opDivScalar normV) else q.m_v)

/-- `Log(q)`: `Quaternion(log(normQ), normV != 0 && normQ != 0 ?
acos(q.m_w/normQ)*(q.m_v/normV) : q.m_v)` with `normV = q.m_v.Norm()` and
`normQ = q.Norm()`. -/
noncomputable def Quaternion.Log (q : Quaternion) : Quaternion :=
  let normV := q.m_v.Norm
  let normQ := q.Norm
  Quaternion.ofWV (Real.log normQ)
    (if normV ≠ 0 ∧ normQ ≠ 0 then
      scalarMulVector (Real.arccos (q.m_w / normQ)) (q.m_v.opDivScalar normV)
    else q.m_v)

/-- `Distance(q1, q2)`: `(q2-q1).Norm()`. -/
noncomputable def Quaternion.Distance (q1 q2 : Quaternion) : ℝ :=
  (q2.opSub q1).Norm

/-- The C library function `atan2(y, x)`, read as the argument of `x + iy`; at
`y = x = 0` this is `0`, the value of `atan2(+0, +0)`. -/
noncomputable def atan2 (y x : ℝ) : ℝ :=
  Complex.arg ⟨x, y⟩

/-- The function `atan2(y, x)` where exact arithmetic determines it.  At `y = x = 0`
the C function returns `0` or `π` according to the signs of the two zeros (`0` for
`atan2(0, +0)`, `π` for `atan2(0, -0)`), which a real number does not carry: `none`
there, the argument of `x + iy` elsewhere. -/
noncomputable def atan2Checked (y x : ℝ) : Option ℝ :=
  if y = 0 ∧ x = 0 then none else some (atan2 y x)

/-- `Rotation(v)` with its division made explicit.  With the flag unset `Normalize()`
divides `m_w` and `m_v` by `Norm()`; when the norm is zero every quotient is `0/0`,
which has no value (NaN in the code, carried to the vector returned): `none`.  In every
other case the vector `Rotation` returns. -/
noncomputable def Quaternion.RotationChecked (a : Quaternion) (v : Vector) :
    Option Vector :=
  if a.m_isNormalized then
    some ((quaternionMulVector a v).opMul a.Conj).GetV
  else if a.Norm = 0 then
    none
  else
    let q := a.Normalize
    some ((quaternionMulVector q v).opMul q.Conj).GetV

/-- `OrthodromicDistance(q1, q2)`: with `origine = Vector(1, 0, 0)`,
`p1 = q1.Rotation(origine)` and `p2 = q2.Rotation(origine)` converted to quaternions
and `p = p1 * p2`, the value `atan2(p.m_v.Norm(), -p.m_w)`.  The result is `none` where
the code yields no real number determined by exact arithmetic: when a rotation divides
by a zero norm (NaN), and when both arguments of `atan2` are zero (the second one is
the negated `p.m_w`, a negative zero in the code, for which `atan2` returns `π`). -/
noncomputable def Quaternion.OrthodromicDistance (q1 q2 : Quaternion) : Option ℝ :=
  let origine : Vector := ⟨1, 0, 0⟩
  match q1.RotationChecked origine, q2.RotationChecked origine with
  | some r1, some r2 =>
    let p1 := Quaternion.ofV r1
    let p2 := Quaternion.ofV r2
    let p := p1.opMul p2
    atan2Checked p.m_v.Norm (-p.m_w)
  | _, _ => none

/-- `pow(q, k)`: `Exp(Log(q) * k)`. -/
noncomputable def Quaternion.pow (q : Quaternion) (k : ℝ) : Quaternion :=
  Quaternion.Exp ((Quaternion.Log q).opMulScalar k)

/-- `SLERP(q1, q2, k)`: `q1 * pow(q1.Inv() * (-q2), k)` when `q1.DotProduct(q2) < 0`,
else `q1 * pow(q1.Inv() * q2, k)`. -/
noncomputable def Quaternion.SLERP (q1 q2 : Quaternion) (k : ℝ) : Quaternion :=
  if q1.DotProduct q2 < 0 then
    q1.opMul (Quaternion.pow (q1.Inv.opMul q2.opNeg) k)
  else
    q1.opMul (Quaternion.pow (q1.Inv.opMul q2) k)

/-- `QuaternionFromAngleAxis(theta, u)`:
`Quaternion(cos(theta/2), sin(theta/2)*(u/u.Norm()))`. -/
noncomputable def Quaternion.QuaternionFromAngleAxis (theta : ℝ) (u : Vector) : Quaternion :=
  Quaternion.ofWV (Real.cos (theta / 2))
    (scalarMulVector (Real.sin (theta / 2)) (u.opDivScalar u.Norm))

/-- `ToSpherical()`: `theta = atan2(m_y, m_x)` and `phi = acos(m_z/Norm())`, returned
as the pair `(theta, phi)`. -/
noncomputable def Vector.ToSpherical (a : Vector) : ℝ × ℝ :=
  let theta := atan2 a.m_y a.m_x
  let phi := Real.arccos (a.m_z / a.Norm)
  (theta, phi)

/-- `FromEuler(yaw, pitch, roll)`: with `t0 = cos(yaw * 0.5)`, `t1 = sin(yaw * 0.5)`,
`t2 = cos(roll * 0.5)`, `t3 = sin(roll * 0.5)`, `t4 = cos(pitch * 0.5)` and
`t5 = sin(pitch * 0.5)`, the quaternion
`(t0*t2*t4 + t1*t3*t5, (t0*t3*t4 - t1*t2*t5, t0*t2*t5 + t1*t3*t4, t1*t2*t4 - t0*t3*t5))`. -/
noncomputable def Quaternion.FromEuler (yaw pitch roll : ℝ) : Quaternion :=
  let t0 := Real.cos (yaw * 0.5)
  let t1 := Real.sin (yaw * 0.5)
  let t2 := Real.cos (roll * 0.5)
  let t3 := Real.sin (roll * 0.5)
  let t4 := Real.cos (pitch * 0.5)
  let t5 := Real.sin (pitch * 0.5)
  Quaternion.ofWV (t0 * t2 * t4 + t1 * t3 * t5)
    ⟨t0 * t3 * t4 - t1 * t2 * t5, t0 * t2 * t5 + t1 * t3 * t4, t1 * t2 * t4 - t0 * t3 * t5⟩

/-- `Rotation(v)` as a call on a receiver: the receiver after the call and the vector
returned.  The method is `const`; with the flag unset the copy `Quaternion q = *this`
is made, `q.Normalize()` acts on the copy and the receiver is not written. -/
noncomputable def Quaternion.RotationCall (self : Quaternion) (v : Vector) :
    Quaternion × Vector :=
  if self.m_isNormalized then
    (self, ((quaternionMulVector self v).opMul self.Conj).GetV)
  else
    let q := self
    let q := q.Normalize
    (self, ((quaternionMulVector q v).opMul q.Conj).GetV)

/-! ## Specification-side definitions for `Quaternion` -/

/-- The invariant of the data model: when `m_isNormalized` is set the norm is one. -/
def Quaternion.Invariant (q : Quaternion) : Prop :=
  q.m_isNormalized = true → q.Norm = 1

/-- The exponential of the spec: `e^w` times the quaternion
`(cos(Norm(v)), sin(Norm(v)) * v / Norm(v))`, the vector part being `v` when
`Norm(v) = 0`; the factor `e^w` is on the scalar part and on the vector part. -/
noncomputable def Quaternion.ExpSpec (q : Quaternion) : Quaternion :=
  (Quaternion.ofWV (Real.cos q.m_v.Norm)
    (if q.m_v.Norm ≠ 0 then scalarMulVector (Real.sin q.m_v.Norm) (q.m_v.opDivScalar q.m_v.Norm)
     else q.m_v)).opMulScalar (Real.exp q.m_w)

/-! ## `class Area` (AreaSet.hpp, lines 9-44) -/

/-- Modelled from the spec: the type `Coord3dCart` of the companion geometry module
(absent from the sources), a Cartesian point compatible with the vector arithmetic
of `Vector`: `^` is the vector product, `*` the dot product, `/` the division by a
scalar. -/
def Coord3dCart (x y z : ℝ) : Vector := ⟨x, y, z⟩

/-- Modelled from the spec: `norm(point)` of the companion geometry module, the
Euclidean norm of a point. -/
noncomputable def norm (p : Vector) : ℝ := p.Norm

/-- Modelled from the spec: `Coord3dSpherical(radius, theta, phi)` of the companion
geometry module, the point at distance `radius` in the direction
`(sin(phi)cos(theta), sin(phi)sin(theta), cos(phi))`, converted to a Cartesian
point where one is expected. -/
noncomputable def Coord3dSpherical (radius theta phi : ℝ) : Vector :=
  ⟨radius * (Real.sin phi * Real.cos theta),
   radius * (Real.sin phi * Real.sin theta),
   radius * Real.cos phi⟩

/-- Modelled from the spec: `RotMat` of the companion geometry module, an orientation
with an `inv()` operation; it is given by the map it applies to points and the map
its inverse applies. -/
structure RotMat where
  apply : Vector → Vector
  applyInv : Vector → Vector

/-- Modelled from the spec: `rotMat.inv()`, the inverse orientation. -/
def RotMat.inv (r : RotMat) : RotMat := ⟨r.applyInv, r.apply⟩

/-- Modelled from the spec: the identity orientation, which leaves every point
unchanged. -/
def RotMat.identity : RotMat := ⟨fun p => p, fun p => p⟩

/-- Modelled from the spec: the free function `Rotation(point, rotMat)`, which
applies an orientation to a point. -/
def Rotation (p : Vector) (r : RotMat) : Vector := r.apply p

/-- The class `Area`: centroid `(m_theta, m_phi)` and weight `m_surface`.  The weight
is a double that can be infinite (the constructor of `AreaSet` computes it as a
quotient whose divisor can be zero): an extended real. -/
structure Area where
  m_theta : ℝ
  m_phi : ℝ
  m_surface : EReal

/-- The first part of `Area::Intersection` (lines 17-31): the corners
`a = (1, y, z)`, `b = (1, y, -z)`, `c = (1, -y, -z)`, `d = (1, -y, z)` with
`y = sqrt(1-cos(horizontalFoVAngle))` and `z = sqrt(1-cos(verticalFoVAngle))`, and
the four normals `n_ab = a ^ b`, `n_bc = b ^ c`, `n_cd = c ^ d`, `n_da = d ^ a`, each
divided by its norm.  They are returned in this order. -/
noncomputable def Area.edgeNormals (horizontalFoVAngle verticalFoVAngle : ℝ) :
    Vector × Vector × Vector × Vector :=
  let y := Real.sqrt (1 - Real.cos horizontalFoVAngle)
  let z := Real.sqrt (1 - Real.cos verticalFoVAngle)
  let a := Coord3dCart 1 y z
  let b := Coord3dCart 1 y (-z)
  let c := Coord3dCart 1 (-y) (-z)
  let d := Coord3dCart 1 (-y) z
  let n_ab := a.opXor b
  let n_ab := n_ab.opDivScalar (norm n_ab)
  let n_bc := b.opXor c
  let n_bc := n_bc.opDivScalar (norm n_bc)
  let n_cd := c.opXor d
  let n_cd := n_cd.opDivScalar (norm n_cd)
  let n_da := d.opXor a
  let n_da := n_da.opDivScalar (norm n_da)
  (n_ab, n_bc, n_cd, n_da)

/-- `Area::Intersection(rotMat, horizontalFoVAngle, verticalFoVAngle)`: with the four
normals of lines 17-31 and
`refPixelPos = Rotation(Coord3dSpherical(1, m_theta, m_phi), rotMat.inv())`, the
value `refPixelPos * n_ab >= 0 && refPixelPos * n_bc >= 0 && refPixelPos * n_cd >= 0
&& refPixelPos * n_da >= 0`. -/
noncomputable def Area.Intersection (self : Area) (rotMat : RotMat)
    (horizontalFoVAngle verticalFoVAngle : ℝ) : Bool :=
  let n := Area.edgeNormals horizontalFoVAngle verticalFoVAngle
  let refPixelPos := Rotation (Coord3dSpherical 1 self.m_theta self.m_phi) rotMat.inv
  decide (refPixelPos.opMul n.1 ≥ 0) && decide (refPixelPos.opMul n.2.1 ≥ 0) &&
    decide (refPixelPos.opMul n.2.2.1 ≥ 0) && decide (refPixelPos.opMul n.2.2.2 ≥ 0)

/-- `GetSurface()`. -/
def Area.GetSurface (self : Area) : EReal := self.m_surface

/-- `GetTheta()`. -/
def Area.GetTheta (self : Area) : ℝ := self.m_theta

/-- `GetPhi()`. -/
def Area.GetPhi (self : Area) : ℝ := self.m_phi

/-! ## `class AreaSet` (AreaSet.hpp, lines 46-97)

Values of the type `unsigned` are natural numbers below `2 ^ 32`; the products and
sums the code forms in `unsigned` are taken modulo `2 ^ 32`. -/

/-- Modelled from the spec: the constant `PI` of `common/Common.hpp` (absent from the
sources), the number π. -/
noncomputable def PI : ℝ := Real.pi

/-- The class `AreaSet`: the sequence of cells and the parallel sequence of usage
counters. -/
structure AreaSet where
  m_areas : List Area
  m_generatedAsQERCounter : List ℕ

/-- Line 55: `unsigned localNbH = std::ceil(nbHPixels*std::sin(j*PI/(2*nbVPixels)))`,
over exact real arithmetic: the sine and the product are the exact ones; the product
`2*nbVPixels` is formed in `unsigned`.  The ceiling lies between `0` and `nbHPixels`,
so the conversion to `unsigned` keeps its value.  Where the exact product is an integer
the double product of the code can lie just above it and its ceiling is then one more:
for `AreaSet(2, 9)` and the ring `j = 15` the exact product is `2*sin(5π/6) = 1`, the
double product is `1.0000000000000007` and the code builds two cells where this
definition gives one (`AreaSet.localNbH_2_9_15`). -/
noncomputable def AreaSet.localNbH (nbHPixels nbVPixels j : ℕ) : ℕ :=
  ⌈(nbHPixels : ℝ) * Real.sin ((j : ℝ) * PI / ((2 * nbVPixels % 2 ^ 32 : ℕ) : ℝ))⌉₊

/-- The double quotient `x / d` of line 58, the divisor `d` being an `unsigned` value
converted to double.  For `d ≠ 0` it is the real quotient.  For `d = 0` the double
division gives `+∞` when `x > 0` and `-∞` when `x < 0`; `0/0` is NaN, which has no
counterpart among the extended reals and is rendered as `0` (so that `0 < x / d` does
not hold there, as no comparison with NaN does); it does not arise for a cell the
constructor stores, whose numerator is positive. -/
noncomputable def AreaSet.surfaceQuotient (x : ℝ) (d : ℕ) : EReal :=
  if d = 0 then (if 0 < x then ⊤ else if x < 0 then ⊥ else 0)
  else ((x / (d : ℝ) : ℝ) : EReal)

/-- Line 58: the cell `Area(i*2*PI/localNbH - PI, j*PI/(2*nbVPixels),
2*PI*PI*sin(j*PI/(2*nbVPixels))/(localNbH*nbVPixels))`; the products `i*2`,
`2*nbVPixels` and `localNbH*nbVPixels` are formed in `unsigned`, and the last one,
the divisor of the surface weight, can wrap to `0`. -/
noncomputable def AreaSet.newArea (nbVPixels j localNbH i : ℕ) : Area :=
  ⟨((i * 2 % 2 ^ 32 : ℕ) : ℝ) * PI / (localNbH : ℝ) - PI,
   (j : ℝ) * PI / ((2 * nbVPixels % 2 ^ 32 : ℕ) : ℝ),
   AreaSet.surfaceQuotient
     (2 * PI * PI * Real.sin ((j : ℝ) * PI / ((2 * nbVPixels % 2 ^ 32 : ℕ) : ℝ)))
     (localNbH * nbVPixels % 2 ^ 32)⟩

/-- The inner loop of the constructor (lines 56-62),
`for (unsigned i = 0; i < localNbH; ++i)`, from the value `i` on: each iteration appends
a cell to `m_areas` and a `0` to `m_generatedAsQERCounter`.  The increment cannot wrap,
`i` being below `localNbH`. -/
noncomputable def AreaSet.cellLoop (nbVPixels j localNbH : ℕ) (i : ℕ) (s : AreaSet) :
    AreaSet :=
  if i < localNbH then
    AreaSet.cellLoop nbVPixels j localNbH (i + 1)
      ⟨s.m_areas ++ [AreaSet.newArea nbVPixels j localNbH i],
       s.m_generatedAsQERCounter ++ [0]⟩
  else s
termination_by localNbH - i

/-- The outer loop of the constructor (lines 53-63),
`for (unsigned j = 1; j < 2*nbVPixels; j += 2)`, from the value `j` on; the bound
`2*nbVPixels` is formed in `unsigned`.  The bound is even and `j` odd, so `j += 2`
cannot wrap. -/
noncomputable def AreaSet.ringLoop (nbHPixels nbVPixels : ℕ) (j : ℕ) (s : AreaSet) :
    AreaSet :=
  if j < 2 * nbVPixels % 2 ^ 32 then
    AreaSet.ringLoop nbHPixels nbVPixels (j + 2)
      (AreaSet.cellLoop nbVPixels j (AreaSet.localNbH nbHPixels nbVPixels j) 0 s)
  else s
termination_by 2 * nbVPixels % 2 ^ 32 - j

/-- The constructor `AreaSet(unsigned nbHPixels, unsigned nbVPixels)`: both sequences
start empty and the loops of lines 53-63 run from `j = 1`. -/
noncomputable def AreaSet.ctor (nbHPixels nbVPixels : ℕ) : AreaSet :=
  AreaSet.ringLoop nbHPixels nbVPixels 1 ⟨[], []⟩

/-- The cells of the ring `j` in the order in which the inner loop appends them:
`newArea` for `i = 0, ..., localNbH - 1`. -/
noncomputable def AreaSet.ringCells (nbHPixels nbVPixels j : ℕ) : List Area :=
  (List.range (AreaSet.localNbH nbHPixels nbVPixels j)).map
    (AreaSet.newArea nbVPixels j (AreaSet.localNbH nbHPixels nbVPixels j))

/-- `GetAreas()`. -/
def AreaSet.GetAreas (self : AreaSet) : List Area := self.m_areas

/-- The loop of `GetAreaIdInTile` (lines 82-89),
`for (unsigned i = 0; i < m_areas.size(); ++i)`, from the value `i` on with the ids
`ans` collected so far; `++i` is formed in `unsigned`.  The first argument bounds the
number of iterations: the result is `none` when it is used up before the loop ends. -/
noncomputable def AreaSet.GetAreaIdInTileLoop (self : AreaSet)
    (startTheta endTheta startPhi endPhi : ℝ) : ℕ → ℕ → List ℕ → Option (List ℕ)
  | 0, _, _ => none
  | fuel + 1, i, ans =>
    if h : i < self.m_areas.length then
      if self.m_areas[i].GetTheta ≥ startTheta ∧ self.m_areas[i].GetTheta < endTheta ∧
          self.m_areas[i].GetPhi ≥ startPhi ∧ self.m_areas[i].GetPhi < endPhi then
        AreaSet.GetAreaIdInTileLoop self startTheta endTheta startPhi endPhi fuel
          ((i + 1) % 2 ^ 32) (ans ++ [i])
      else
        AreaSet.GetAreaIdInTileLoop self startTheta endTheta startPhi endPhi fuel
          ((i + 1) % 2 ^ 32) ans
    else some ans

/-- `GetAreaIdInTile(startTheta, endTheta, startPhi, endPhi)`: the loop from `i = 0`
with no id collected.  The method is not `const`: the result is the receiver after the
call and the list returned, or `none` when the bound on the iterations is used up. -/
noncomputable def AreaSet.GetAreaIdInTile (self : AreaSet)
    (startTheta endTheta startPhi endPhi : ℝ) (fuel : ℕ) : Option (AreaSet × List ℕ) :=
  (AreaSet.GetAreaIdInTileLoop self startTheta endTheta startPhi endPhi fuel 0 []).map
    (fun ans => (self, ans))

/-- `AddUseAsQer(AreaId)`: `++m_generatedAsQERCounter[AreaId]`, the increment being
formed in `unsigned`.  For an `AreaId` outside the counters (undefined behaviour in the
source) the receiver is returned as it is. -/
def AreaSet.AddUseAsQer (self : AreaSet) (AreaId : ℕ) : AreaSet :=
  match self.m_generatedAsQERCounter[AreaId]? with
  | some c =>
    { self with m_generatedAsQERCounter :=
        self.m_generatedAsQERCounter.set AreaId ((c + 1) % 2 ^ 32) }
  | none => self

/-! ## Specification-side definitions for `AreaSet` -/

/-- The ring centre of the spec: `phi_j = j*π/(2*nbVPixels)`, as a real number. -/
noncomputable def AreaSet.specRingPhi (nbVPixels j : ℕ) : ℝ :=
  (j : ℝ) * Real.pi / (2 * (nbVPixels : ℝ))

/-- The cell count of the spec for the ring `j`: `ceil(nbHPixels * sin(phi_j))`. -/
noncomputable def AreaSet.specRingCount (nbHPixels nbVPixels j : ℕ) : ℕ :=
  ⌈(nbHPixels : ℝ) * Real.sin (AreaSet.specRingPhi nbVPixels j)⌉₊

/-- The tile test of the spec for the cell id `i`: the id is below the number of cells
and the centroid lies in the half-open ranges of `theta` and `phi`. -/
def AreaSet.inTile (self : AreaSet) (startTheta endTheta startPhi endPhi : ℝ) (i : ℕ) :
    Prop :=
  ∃ h : i < self.m_areas.length,
    startTheta ≤ self.m_areas[i].m_theta ∧ self.m_areas[i].m_theta < endTheta ∧
    startPhi ≤ self.m_areas[i].m_phi ∧ self.m_areas[i].m_phi < endPhi

/-! ## Properties -/

/-- The first components of the four edge normals: each is `-2yz` over the norm
of the corresponding vector product. -/
theorem Area.edgeNormals_x (h v : ℝ) :
    let y := Real.sqrt (1 - Real.cos h)
    let z := Real.sqrt (1 - Real.cos v)
    (Area.edgeNormals h v).1.m_x = -(2 * y * z) / Real.sqrt ((2*y*z)^2 + (2*z)^2) ∧
    (Area.edgeNormals h v).2.1.m_x = -(2 * y * z) / Real.sqrt ((2*y*z)^2 + (2*y)^2) ∧
    (Area.edgeNormals h v).2.2.1.m_x = -(2 * y * z) / Real.sqrt ((2*y*z)^2 + (2*z)^2) ∧
    (Area.edgeNormals h v).2.2.2.m_x = -(2 * y * z) / Real.sqrt ((2*y*z)^2 + (2*y)^2) := by
  intro y z
  simp only [Area.edgeNormals, Coord3dCart, Vector.opXor, Vector.opDivScalar, norm,
    Vector.Norm, Vector.DotProduct]
  refine ⟨?_, ?_, ?_, ?_⟩ <;> congr 1 <;> first | ring1 | (congr 1; ring1)

/-- On `(0, π]` the cosine stays below one, so the chord length
`sqrt(1 - cos(angle))` of the FoV corners is positive. -/
theorem Area.chord_pos (h : ℝ) (h0 : 0 < h) (h1 : h ≤ Real.pi) :
    0 < Real.sqrt (1 - Real.cos h) := by
  have hc : Real.cos h < Real.cos 0 :=
    Real.cos_lt_cos_of_nonneg_of_le_pi (le_refl 0) h1 h0
  rw [Real.cos_zero] at hc
  exact Real.sqrt_pos.mpr (by linarith)

/-- With positive chord lengths the first component of each of the four edge normals
is negative. -/
theorem Area.edgeNormals_x_neg (h v : ℝ) (hy : 0 < Real.sqrt (1 - Real.cos h))
    (hz : 0 < Real.sqrt (1 - Real.cos v)) :
    (Area.edgeNormals h v).1.m_x < 0 ∧ (Area.edgeNormals h v).2.1.m_x < 0 ∧
    (Area.edgeNormals h v).2.2.1.m_x < 0 ∧ (Area.edgeNormals h v).2.2.2.m_x < 0 := by
  obtain ⟨e1, e2, e3, e4⟩ := Area.edgeNormals_x h v
  rw [e1, e2, e3, e4]
  have hyz : 0 < 2 * Real.sqrt (1 - Real.cos h) * Real.sqrt (1 - Real.cos v) := by positivity
  have hn : -(2 * Real.sqrt (1 - Real.cos h) * Real.sqrt (1 - Real.cos v)) < 0 := by linarith
  refine ⟨?_, ?_, ?_, ?_⟩ <;> exact div_neg_of_neg_of_pos hn (Real.sqrt_pos.mpr (by positivity))

/-- The dot product of a point on the first axis with a vector. -/
theorem Vector.opMul_axis (c : ℝ) (n : Vector) :
    (Coord3dCart c 0 0).opMul n = c * n.m_x := by
  simp [Coord3dCart, Vector.opMul, Vector.DotProduct]

/-- The centroid of the cell `(theta, phi) = (0, π/2)` seen under the identity
orientation is the view axis `(1, 0, 0)`. -/
theorem Area.refPixelPos_front :
    Rotation (Coord3dSpherical 1 0 (Real.pi / 2)) RotMat.identity.inv = Coord3dCart 1 0 0 := by
  simp [Rotation, RotMat.identity, RotMat.inv, Coord3dSpherical, Coord3dCart]

/-- The centroid of the cell `(theta, phi) = (π, π/2)` seen under the identity
orientation is `(-1, 0, 0)`, opposite to the view axis. -/
theorem Area.refPixelPos_back :
    Rotation (Coord3dSpherical 1 Real.pi (Real.pi / 2)) RotMat.identity.inv
      = Coord3dCart (-1) 0 0 := by
  simp [Rotation, RotMat.identity, RotMat.inv, Coord3dSpherical, Coord3dCart]

/-- C1 (evaluation of the code): for every FoV with `0 < hFov, vFov ≤ π` each of the
four normalized edge normals `n_ab`, `n_bc`, `n_cd`, `n_da` has a negative dot product
with the view axis `(1, 0, 0)`, so the normals point outward, and
`Area(0, π/2, s).Intersection(identity, hFov, vFov)` returns false: the cell whose
centroid lies on the view axis is reported not visible. -/
theorem Area.Intersection_view_axis (s : EReal) (hFov vFov : ℝ)
    (hh0 : 0 < hFov) (hh1 : hFov ≤ Real.pi) (hv0 : 0 < vFov) (hv1 : vFov ≤ Real.pi) :
    ((Coord3dCart 1 0 0).opMul (Area.edgeNormals hFov vFov).1 < 0 ∧
     (Coord3dCart 1 0 0).opMul (Area.edgeNormals hFov vFov).2.1 < 0 ∧
     (Coord3dCart 1 0 0).opMul (Area.edgeNormals hFov vFov).2.2.1 < 0 ∧
     (Coord3dCart 1 0 0).opMul (Area.edgeNormals hFov vFov).2.2.2 < 0) ∧
    Area.Intersection ⟨0, Real.pi / 2, s⟩ RotMat.identity hFov vFov = false := by
  obtain ⟨n1, n2, n3, n4⟩ :=
    Area.edgeNormals_x_neg hFov vFov (Area.chord_pos hFov hh0 hh1) (Area.chord_pos vFov hv0 hv1)
  refine ⟨⟨?_, ?_, ?_, ?_⟩, ?_⟩
  · rw [Vector.opMul_axis]; linarith
  · rw [Vector.opMul_axis]; linarith
  · rw [Vector.opMul_axis]; linarith
  · rw [Vector.opMul_axis]; linarith
  · have hfirst : ¬ ((Coord3dCart 1 0 0).opMul (Area.edgeNormals hFov vFov).1 ≥ 0) := by
      rw [Vector.opMul_axis]; intro hge; linarith
    simp only [Area.Intersection, Area.refPixelPos_front, decide_eq_false hfirst,
      Bool.false_and]

/-- C1, at the FoV of the scenario: `Area(0, π/2, 1).Intersection(identity, π/2, π/2)`
returns false and the four normals have a negative dot product with the view axis. -/
theorem Area.Intersection_view_axis_witness :
    ((Coord3dCart 1 0 0).opMul (Area.edgeNormals (Real.pi / 2) (Real.pi / 2)).1 < 0 ∧
     (Coord3dCart 1 0 0).opMul (Area.edgeNormals (Real.pi / 2) (Real.pi / 2)).2.1 < 0 ∧
     (Coord3dCart 1 0 0).opMul (Area.edgeNormals (Real.pi / 2) (Real.pi / 2)).2.2.1 < 0 ∧
     (Coord3dCart 1 0 0).opMul (Area.edgeNormals (Real.pi / 2) (Real.pi / 2)).2.2.2 < 0) ∧
    Area.Intersection ⟨0, Real.pi / 2, 1⟩ RotMat.identity (Real.pi / 2) (Real.pi / 2) = false :=
  Area.Intersection_view_axis 1 (Real.pi / 2) (Real.pi / 2)
    (by positivity) (by linarith [Real.pi_pos]) (by positivity) (by linarith [Real.pi_pos])

/-- C2 (evaluation of the code): for every FoV with `0 < hFov ≤ π/2` and
`0 < vFov ≤ π/2` and every surface `s`,
`Area(π, π/2, s).Intersection(identity, hFov, vFov)` returns true: the cell whose
centroid is `(-1, 0, 0)`, directly behind the viewer, is reported visible. -/
theorem Area.Intersection_behind (s : EReal) (hFov vFov : ℝ)
    (hh0 : 0 < hFov) (hh1 : hFov ≤ Real.pi / 2) (hv0 : 0 < vFov) (hv1 : vFov ≤ Real.pi / 2) :
    Area.Intersection ⟨Real.pi, Real.pi / 2, s⟩ RotMat.identity hFov vFov = true := by
  have hpi := Real.pi_pos
  obtain ⟨n1, n2, n3, n4⟩ :=
    Area.edgeNormals_x_neg hFov vFov (Area.chord_pos hFov hh0 (by linarith))
      (Area.chord_pos vFov hv0 (by linarith))
  simp only [Area.Intersection, Area.refPixelPos_back, Vector.opMul_axis, Bool.and_eq_true,
    decide_eq_true_eq]
  refine ⟨⟨⟨?_, ?_⟩, ?_⟩, ?_⟩ <;> linarith

/-- C2, at the FoV of the scenario: `Area(π, π/2, 1).Intersection(identity, π/2, π/2)`
returns true. -/
theorem Area.Intersection_behind_witness :
    Area.Intersection ⟨Real.pi, Real.pi / 2, 1⟩ RotMat.identity (Real.pi / 2) (Real.pi / 2)
      = true :=
  Area.Intersection_behind 1 (Real.pi / 2) (Real.pi / 2)
    (by positivity) (le_refl _) (by positivity) (le_refl _)

/-! ### Rotation by a unit quaternion -/

/-- A quaternion of norm one has squared norm one. -/
theorem Quaternion.DotProduct_self_of_Norm_one (q : Quaternion) (hq : q.Norm = 1) :
    q.m_w * q.m_w + (q.m_v.m_x * q.m_v.m_x + q.m_v.m_y * q.m_v.m_y + q.m_v.m_z * q.m_v.m_z)
      = 1 := by
  have h := hq
  unfold Quaternion.Norm at h
  rw [Real.sqrt_eq_one] at h
  simpa [Quaternion.DotProduct, Vector.DotProduct] using h

/-- The squared norm of the sandwich product `(a * v * a.Conj()).GetV()` is the squared
norm of `v` times the square of the squared norm of `a`. -/
theorem Quaternion.sandwich_DotProduct (a : Quaternion) (v : Vector) :
    (((quaternionMulVector a v).opMul a.Conj).GetV).DotProduct
        (((quaternionMulVector a v).opMul a.Conj).GetV)
      = (a.DotProduct a) ^ 2 * v.DotProduct v := by
  simp only [quaternionMulVector, Quaternion.opMul, Quaternion.ofWV, Quaternion.ofV,
    Quaternion.Conj, Quaternion.GetV, Quaternion.DotProduct, Vector.DotProduct, Vector.opMul,
    Vector.opAdd, Vector.opXor, Vector.opNeg, scalarMulVector, Vector.opMulScalar]
  ring

/-- Normalizing a quaternion of norm one whose flag is unset keeps both parts and
sets the flag. -/
theorem Quaternion.Normalize_of_Norm_one (q : Quaternion) (hf : q.m_isNormalized = false)
    (hq : q.Norm = 1) : q.Normalize = ⟨q.m_w, q.m_v, true⟩ := by
  simp [Quaternion.Normalize, hf, Quaternion.opAssign, Quaternion.opDivScalar,
    Quaternion.ofWV, Vector.opDivScalar, hq]

/-- The rotation by a quaternion of norm one is the sandwich product with the same
scalar and vector parts, whatever the flag. -/
theorem Quaternion.Rotation_of_Norm_one (q : Quaternion) (v : Vector) (hq : q.Norm = 1) :
    q.Rotation v
      = ((quaternionMulVector ⟨q.m_w, q.m_v, true⟩ v).opMul
          (Quaternion.Conj ⟨q.m_w, q.m_v, true⟩)).GetV := by
  cases hf : q.m_isNormalized with
  | false =>
    simp only [Quaternion.Rotation, hf, Quaternion.Normalize_of_Norm_one q hf hq]
    simp
  | true =>
    simp only [Quaternion.Rotation, hf]
    simp [quaternionMulVector, Quaternion.opMul, Quaternion.Conj]

/-- The rotation by a quaternion of norm one keeps the norm of a vector. -/
theorem Quaternion.Norm_Rotation_of_Norm_one (q : Quaternion) (v : Vector)
    (hq : q.Norm = 1) : (q.Rotation v).Norm = v.Norm := by
  have h1 := Quaternion.DotProduct_self_of_Norm_one q hq
  rw [Quaternion.Rotation_of_Norm_one q v hq]
  unfold Vector.Norm
  rw [Quaternion.sandwich_DotProduct]
  have h2 : Quaternion.DotProduct ⟨q.m_w, q.m_v, true⟩ ⟨q.m_w, q.m_v, true⟩ = 1 := by
    simpa [Quaternion.DotProduct, Vector.DotProduct] using h1
  rw [h2]
  simp

/-- C3: for every quaternion `q` with `Norm(q) = 1`, whether its flag is set or
not, and every vector `v`, `Norm(q.Rotation(v)) = Norm(v)`. -/
theorem Quaternion.Rotation_preserves_Norm (q : Quaternion) (v : Vector) (hq : q.Norm = 1) :
    (q.Rotation v).Norm = v.Norm :=
  Quaternion.Norm_Rotation_of_Norm_one q v hq

/-- C3 at `q = (0, (0, 1, 0))` with the flag unset and `v = (3, 4, 0)`. -/
theorem Quaternion.Rotation_preserves_Norm_witness :
    (Quaternion.Rotation ⟨0, ⟨0, 1, 0⟩, false⟩ ⟨3, 4, 0⟩).Norm = Vector.Norm ⟨3, 4, 0⟩ :=
  Quaternion.Rotation_preserves_Norm ⟨0, ⟨0, 1, 0⟩, false⟩ ⟨3, 4, 0⟩
    (by simp [Quaternion.Norm, Quaternion.DotProduct, Vector.DotProduct])

/-- C4: for every angle `theta`,
`QuaternionFromAngleAxis(theta, Vector(0,0,1)).Rotation(Vector(1,0,0))` is
`Vector(cos(theta), sin(theta), 0)`; for `theta = π/2` it is `Vector(0,1,0)`. -/
theorem Quaternion.Rotation_about_z (theta : ℝ) :
    (Quaternion.QuaternionFromAngleAxis theta ⟨0, 0, 1⟩).Rotation ⟨1, 0, 0⟩
        = ⟨Real.cos theta, Real.sin theta, 0⟩ ∧
    (Quaternion.QuaternionFromAngleAxis (Real.pi / 2) ⟨0, 0, 1⟩).Rotation ⟨1, 0, 0⟩
        = ⟨0, 1, 0⟩ := by
  have key : ∀ t : ℝ, (Quaternion.QuaternionFromAngleAxis t ⟨0, 0, 1⟩).Rotation ⟨1, 0, 0⟩
      = ⟨Real.cos t, Real.sin t, 0⟩ := by
    intro t
    have hn : (Quaternion.QuaternionFromAngleAxis t ⟨0, 0, 1⟩).Norm = 1 := by
      simp [Quaternion.QuaternionFromAngleAxis, Quaternion.Norm, Quaternion.DotProduct,
        Quaternion.ofWV, Vector.DotProduct, Vector.Norm, scalarMulVector, Vector.opMulScalar,
        Vector.opDivScalar, ← pow_two]
    rw [Quaternion.Rotation_of_Norm_one _ _ hn]
    have hc : Real.cos t = Real.cos (t / 2) ^ 2 - Real.sin (t / 2) ^ 2 := by
      have := Real.cos_sq_add_sin_sq (t / 2) ▸ Real.cos_two_mul (t / 2)
      have h2 : 2 * (t / 2) = t := by ring
      rw [h2] at this
      have hs := Real.sin_sq_add_cos_sq (t / 2)
      nlinarith
    have hs : Real.sin t = 2 * Real.sin (t / 2) * Real.cos (t / 2) := by
      have := Real.sin_two_mul (t / 2)
      have h2 : 2 * (t / 2) = t := by ring
      rwa [h2] at this
    simp only [Quaternion.QuaternionFromAngleAxis, quaternionMulVector, Quaternion.opMul,
      Quaternion.ofWV, Quaternion.ofV, Quaternion.Conj, Quaternion.GetV, Vector.DotProduct,
      Vector.opMul, Vector.opAdd, Vector.opXor, Vector.opNeg, scalarMulVector,
      Vector.opMulScalar, Vector.opDivScalar, Vector.Norm, hc, hs]
    simp
    refine ⟨by ring, by ring⟩
  refine ⟨key theta, ?_⟩
  rw [key]
  simp

/-- The Hamilton product of a quaternion with its conjugate. -/
theorem Quaternion.opMul_Conj (q : Quaternion) :
    q.opMul q.Conj = Quaternion.ofWV (q.DotProduct q) ⟨0, 0, 0⟩ := by
  simp only [Quaternion.opMul, Quaternion.ofWV, Quaternion.Conj, Quaternion.DotProduct,
    Vector.DotProduct, Vector.opMul, Vector.opAdd, Vector.opXor, Vector.opNeg,
    scalarMulVector, Vector.opMulScalar, Quaternion.mk.injEq, Vector.mk.injEq, and_true]
  refine ⟨by ring, by ring, by ring, by ring⟩

/-- For a quaternion of norm one `Inv()` has the scalar and vector parts of `Conj()`,
on both branches. -/
theorem Quaternion.Inv_of_Norm_one (q : Quaternion) (hq : q.Norm = 1) : q.Inv = q.Conj := by
  cases hf : q.m_isNormalized with
  | false =>
    simp [Quaternion.Inv, hf, hq, Quaternion.opDivScalar, Quaternion.Conj, Quaternion.ofWV,
      Vector.opDivScalar]
  | true => simp [Quaternion.Inv, hf]

/-- C5: for every quaternion `q` with `Norm(q) = 1`, with the flag set or unset,
`q * q.Inv()` is the identity quaternion `(1, (0,0,0))`. -/
theorem Quaternion.opMul_Inv (q : Quaternion) (hq : q.Norm = 1) :
    q.opMul q.Inv = Quaternion.ofWV 1 ⟨0, 0, 0⟩ := by
  rw [Quaternion.Inv_of_Norm_one q hq, Quaternion.opMul_Conj]
  have h1 := Quaternion.DotProduct_self_of_Norm_one q hq
  have h2 : q.DotProduct q = 1 := by
    simpa [Quaternion.DotProduct, Vector.DotProduct] using h1
  rw [h2]

/-- C5 at `q = (0, (0, 0, 1))` with the flag unset, where `Inv()` divides by the
squared norm. -/
theorem Quaternion.opMul_Inv_witness :
    Quaternion.opMul ⟨0, ⟨0, 0, 1⟩, false⟩ (Quaternion.Inv ⟨0, ⟨0, 0, 1⟩, false⟩)
      = Quaternion.ofWV 1 ⟨0, 0, 0⟩ :=
  Quaternion.opMul_Inv ⟨0, ⟨0, 0, 1⟩, false⟩
    (by simp [Quaternion.Norm, Quaternion.DotProduct, Vector.DotProduct])

/-! ### Exponential, logarithm and SLERP at the end points -/

/-- Multiplying a vector by the scalar one leaves it unchanged. -/
theorem Vector.opMulScalar_one (v : Vector) : v.opMulScalar 1 = v := by
  simp [Vector.opMulScalar]

/-- Multiplying a vector by the scalar zero gives the zero vector. -/
theorem Vector.opMulScalar_zero (v : Vector) : v.opMulScalar 0 = ⟨0, 0, 0⟩ := by
  simp [Vector.opMulScalar]

/-- The square of the norm of a vector is its dot product with itself. -/
theorem Vector.Norm_sq (v : Vector) :
    v.Norm ^ 2 = v.m_x * v.m_x + v.m_y * v.m_y + v.m_z * v.m_z := by
  unfold Vector.Norm Vector.DotProduct
  have hx := mul_self_nonneg v.m_x
  have hy := mul_self_nonneg v.m_y
  have hz := mul_self_nonneg v.m_z
  exact Real.sq_sqrt (by linarith)

/-- The norm of a vector is not negative. -/
theorem Vector.Norm_nonneg (v : Vector) : 0 ≤ v.Norm := Real.sqrt_nonneg _

/-- Only the zero vector has norm zero. -/
theorem Vector.eq_zero_of_Norm_eq_zero (v : Vector) (h : v.Norm = 0) : v = ⟨0, 0, 0⟩ := by
  have h2 := Vector.Norm_sq v
  rw [h] at h2
  have px := mul_self_nonneg v.m_x
  have py := mul_self_nonneg v.m_y
  have pz := mul_self_nonneg v.m_z
  have hx : v.m_x = 0 := mul_self_eq_zero.mp (by linarith)
  have hy : v.m_y = 0 := mul_self_eq_zero.mp (by linarith)
  have hz : v.m_z = 0 := mul_self_eq_zero.mp (by linarith)
  cases v with
  | mk x y z =>
    simp only [Vector.mk.injEq]
    exact ⟨hx, hy, hz⟩

/-- The norm of `a * (v / v.Norm())` is `a` when `a` is not negative and `v` is not
the zero vector. -/
theorem Vector.Norm_scalarMul_unit (v : Vector) (a : ℝ) (ha : 0 ≤ a) (hv : v.Norm ≠ 0) :
    (scalarMulVector a (v.opDivScalar v.Norm)).Norm = a := by
  have h2 := Vector.Norm_sq v
  have hd : (scalarMulVector a (v.opDivScalar v.Norm)).DotProduct
      (scalarMulVector a (v.opDivScalar v.Norm)) = a ^ 2 := by
    simp only [scalarMulVector, Vector.opMulScalar, Vector.opDivScalar, Vector.DotProduct]
    have : a * (v.m_x / v.Norm) * (a * (v.m_x / v.Norm)) + a * (v.m_y / v.Norm) *
        (a * (v.m_y / v.Norm)) + a * (v.m_z / v.Norm) * (a * (v.m_z / v.Norm))
        = a ^ 2 * ((v.m_x * v.m_x + v.m_y * v.m_y + v.m_z * v.m_z) / v.Norm ^ 2) := by
      field_simp
      ring
    rw [this, ← h2, div_self (pow_ne_zero 2 hv), mul_one]
  unfold Vector.Norm at *
  rw [hd, Real.sqrt_sq ha]

/-- The power `pow(q, 0)` is the identity quaternion, for every `q`. -/
theorem Quaternion.pow_zero_eq (q : Quaternion) :
    Quaternion.pow q 0 = Quaternion.ofWV 1 ⟨0, 0, 0⟩ := by
  simp [Quaternion.pow, Quaternion.Exp, Quaternion.opMulScalar, Quaternion.ofWV,
    Vector.opMulScalar_zero, Vector.Norm, Vector.DotProduct]

/-- For a quaternion of norm one with a scalar part that is not negative,
`pow(q, 1)` has the scalar and vector parts of `q`. -/
theorem Quaternion.pow_one_eq (q : Quaternion) (hq : q.Norm = 1) (hw : 0 ≤ q.m_w) :
    Quaternion.pow q 1 = Quaternion.ofWV q.m_w q.m_v := by
  have h1 := Quaternion.DotProduct_self_of_Norm_one q hq
  have h2 := Vector.Norm_sq q.m_v
  have hn0 := Vector.Norm_nonneg q.m_v
  have hsq : q.m_w ^ 2 + q.m_v.Norm ^ 2 = 1 := by rw [h2]; linarith
  by_cases hv : q.m_v.Norm = 0
  · have hz := Vector.eq_zero_of_Norm_eq_zero q.m_v hv
    have hw1 : q.m_w = 1 := by
      rw [hv] at hsq
      nlinarith
    have hzn : Vector.Norm ⟨0, 0, 0⟩ = 0 := by simp [Vector.Norm, Vector.DotProduct]
    simp [Quaternion.pow, Quaternion.Exp, Quaternion.Log, Quaternion.opMulScalar,
      Quaternion.ofWV, Vector.opMulScalar_one, hq, hw1, hz, hzn]
  · have hpos : 0 < q.m_v.Norm := lt_of_le_of_ne hn0 (Ne.symm hv)
    have hwlt : q.m_w < 1 := by nlinarith
    have hacos : 0 < Real.arccos q.m_w := Real.arccos_pos.mpr hwlt
    have hnorm := Vector.Norm_scalarMul_unit q.m_v (Real.arccos q.m_w) (le_of_lt hacos) hv
    have hsin : Real.sin (Real.arccos q.m_w) = q.m_v.Norm := by
      rw [Real.sin_arccos]
      have : 1 - q.m_w ^ 2 = q.m_v.Norm ^ 2 := by linarith
      rw [this, Real.sqrt_sq hn0]
    have hcos : Real.cos (Real.arccos q.m_w) = q.m_w :=
      Real.cos_arccos (by linarith) (le_of_lt hwlt)
    have hlog : Quaternion.Log q = Quaternion.ofWV 0
        (scalarMulVector (Real.arccos q.m_w) (q.m_v.opDivScalar q.m_v.Norm)) := by
      simp [Quaternion.Log, hq, hv]
    simp only [Quaternion.pow, hlog, Quaternion.opMulScalar, Quaternion.ofWV,
      Vector.opMulScalar_one, Quaternion.Exp, hnorm, zero_mul, Real.exp_zero, mul_one, hcos,
      ne_eq, hacos.ne.symm, not_false_eq_true, if_true, hsin]
    have hvec : scalarMulVector q.m_v.Norm
        ((scalarMulVector (Real.arccos q.m_w) (q.m_v.opDivScalar q.m_v.Norm)).opDivScalar
          (Real.arccos q.m_w)) = q.m_v := by
      cases hm : q.m_v with
      | mk x y z =>
        rw [hm] at hv
        simp only [scalarMulVector, Vector.opMulScalar, Vector.opDivScalar, Vector.mk.injEq]
        refine ⟨?_, ?_, ?_⟩ <;> field_simp <;> ring
    rw [hvec]

/-- Multiplying on the right by the identity quaternion keeps both parts. -/
theorem Quaternion.opMul_identity (q : Quaternion) :
    q.opMul (Quaternion.ofWV 1 ⟨0, 0, 0⟩) = Quaternion.ofWV q.m_w q.m_v := by
  cases q with
  | mk w v f =>
    cases v with
    | mk x y z =>
      simp [Quaternion.opMul, Quaternion.ofWV, Vector.DotProduct, Vector.opMul, Vector.opAdd,
        Vector.opXor, scalarMulVector, Vector.opMulScalar]

/-- The product `a * (a.Conj() * b)` is `b` scaled by the squared norm of `a`. -/
theorem Quaternion.opMul_Conj_opMul (a b : Quaternion) :
    a.opMul (a.Conj.opMul b)
      = Quaternion.ofWV (a.DotProduct a * b.m_w)
          ⟨a.DotProduct a * b.m_v.m_x, a.DotProduct a * b.m_v.m_y,
           a.DotProduct a * b.m_v.m_z⟩ := by
  simp only [Quaternion.opMul, Quaternion.ofWV, Quaternion.Conj, Quaternion.DotProduct,
    Vector.DotProduct, Vector.opMul, Vector.opAdd, Vector.opXor, Vector.opNeg,
    scalarMulVector, Vector.opMulScalar, Quaternion.mk.injEq, Vector.mk.injEq, and_true]
  refine ⟨by ring, by ring, by ring, by ring⟩

/-- The squared norm of `a.Conj() * b` is the product of the squared norms. -/
theorem Quaternion.DotProduct_Conj_opMul (a b : Quaternion) :
    (a.Conj.opMul b).DotProduct (a.Conj.opMul b) = a.DotProduct a * b.DotProduct b := by
  simp only [Quaternion.opMul, Quaternion.ofWV, Quaternion.Conj, Quaternion.DotProduct,
    Vector.DotProduct, Vector.opMul, Vector.opAdd, Vector.opXor, Vector.opNeg,
    scalarMulVector, Vector.opMulScalar]
  ring

/-- The scalar part of `a.Conj() * b` is the dot product of `a` and `b`. -/
theorem Quaternion.m_w_Conj_opMul (a b : Quaternion) :
    (a.Conj.opMul b).m_w = a.DotProduct b := by
  simp only [Quaternion.opMul, Quaternion.ofWV, Quaternion.Conj, Quaternion.DotProduct,
    Vector.DotProduct, Vector.opMul, Vector.opNeg]
  ring

/-- A quaternion whose squared norm is one has norm one. -/
theorem Quaternion.Norm_one_of_DotProduct (q : Quaternion) (h : q.DotProduct q = 1) :
    q.Norm = 1 := by
  unfold Quaternion.Norm
  rw [h, Real.sqrt_one]

/-- A quaternion of norm one has squared norm one, in terms of `DotProduct`. -/
theorem Quaternion.DotProduct_of_Norm_one (q : Quaternion) (hq : q.Norm = 1) :
    q.DotProduct q = 1 := by
  have h1 := Quaternion.DotProduct_self_of_Norm_one q hq
  simpa [Quaternion.DotProduct, Vector.DotProduct] using h1

/-- For quaternions `a`, `b` of norm one with a dot product that is not negative,
`a * pow(a.Inv() * b, 1)` has the scalar and vector parts of `b`. -/
theorem Quaternion.opMul_pow_one (a b : Quaternion) (ha : a.Norm = 1) (hb : b.Norm = 1)
    (hd : 0 ≤ a.DotProduct b) :
    a.opMul (Quaternion.pow (a.Inv.opMul b) 1) = Quaternion.ofWV b.m_w b.m_v := by
  have hda := Quaternion.DotProduct_of_Norm_one a ha
  have hdb := Quaternion.DotProduct_of_Norm_one b hb
  rw [Quaternion.Inv_of_Norm_one a ha]
  have hn : (a.Conj.opMul b).Norm = 1 :=
    Quaternion.Norm_one_of_DotProduct _ (by rw [Quaternion.DotProduct_Conj_opMul, hda, hdb,
      mul_one])
  have hw : 0 ≤ (a.Conj.opMul b).m_w := by rw [Quaternion.m_w_Conj_opMul]; exact hd
  rw [Quaternion.pow_one_eq _ hn hw]
  have hre : Quaternion.ofWV (a.Conj.opMul b).m_w (a.Conj.opMul b).m_v = a.Conj.opMul b := rfl
  rw [hre, Quaternion.opMul_Conj_opMul, hda]
  simp

/-- C6: for all quaternions `q1`, `q2` of norm one, `SLERP(q1, q2, 0) == q1`, and
`SLERP(q1, q2, 1) == q2` when `DotProduct(q1, q2) >= 0`, and `SLERP(q1, q2, 1) == -q2`
when `DotProduct(q1, q2) < 0`; `==` compares the scalar and the vector parts. -/
theorem Quaternion.SLERP_end_points (q1 q2 : Quaternion) (h1 : q1.Norm = 1)
    (h2 : q2.Norm = 1) :
    (Quaternion.SLERP q1 q2 0).opEq q1 ∧
    (0 ≤ q1.DotProduct q2 → (Quaternion.SLERP q1 q2 1).opEq q2) ∧
    (q1.DotProduct q2 < 0 → (Quaternion.SLERP q1 q2 1).opEq q2.opNeg) := by
  refine ⟨?_, ?_, ?_⟩
  · unfold Quaternion.SLERP
    split <;> rw [Quaternion.pow_zero_eq, Quaternion.opMul_identity] <;>
      exact ⟨rfl, rfl⟩
  · intro hd
    unfold Quaternion.SLERP
    rw [if_neg (not_lt.mpr hd), Quaternion.opMul_pow_one q1 q2 h1 h2 hd]
    exact ⟨rfl, rfl⟩
  · intro hd
    have hneg : q2.opNeg.Norm = 1 := by
      apply Quaternion.Norm_one_of_DotProduct
      have := Quaternion.DotProduct_of_Norm_one q2 h2
      simp only [Quaternion.opNeg, Quaternion.ofWV, Quaternion.DotProduct, Vector.DotProduct,
        Vector.opNeg] at this ⊢
      linarith
    have hd2 : 0 ≤ q1.DotProduct q2.opNeg := by
      simp only [Quaternion.opNeg, Quaternion.ofWV, Quaternion.DotProduct, Vector.DotProduct,
        Vector.opNeg] at hd ⊢
      linarith
    unfold Quaternion.SLERP
    rw [if_pos hd, Quaternion.opMul_pow_one q1 q2.opNeg h1 hneg hd2]
    exact ⟨rfl, rfl⟩

/-- C6 at `q1 = (1, (0,0,0))` and `q2 = (-1, (0,0,0))`, the degenerate case
`q2 = -q1` in which the zero-guards of `Log` and `Exp` are taken. -/
theorem Quaternion.SLERP_end_points_witness :
    (Quaternion.SLERP ⟨1, ⟨0, 0, 0⟩, false⟩ ⟨-1, ⟨0, 0, 0⟩, false⟩ 0).opEq
        ⟨1, ⟨0, 0, 0⟩, false⟩ ∧
    (0 ≤ Quaternion.DotProduct ⟨1, ⟨0, 0, 0⟩, false⟩ ⟨-1, ⟨0, 0, 0⟩, false⟩ →
      (Quaternion.SLERP ⟨1, ⟨0, 0, 0⟩, false⟩ ⟨-1, ⟨0, 0, 0⟩, false⟩ 1).opEq
        ⟨-1, ⟨0, 0, 0⟩, false⟩) ∧
    (Quaternion.DotProduct ⟨1, ⟨0, 0, 0⟩, false⟩ ⟨-1, ⟨0, 0, 0⟩, false⟩ < 0 →
      (Quaternion.SLERP ⟨1, ⟨0, 0, 0⟩, false⟩ ⟨-1, ⟨0, 0, 0⟩, false⟩ 1).opEq
        (Quaternion.opNeg ⟨-1, ⟨0, 0, 0⟩, false⟩)) :=
  Quaternion.SLERP_end_points ⟨1, ⟨0, 0, 0⟩, false⟩ ⟨-1, ⟨0, 0, 0⟩, false⟩
    (by simp [Quaternion.Norm, Quaternion.DotProduct, Vector.DotProduct])
    (by simp [Quaternion.Norm, Quaternion.DotProduct, Vector.DotProduct])

/-! ### The flag invariant and the orthodromic distance -/

/-- After `Normalize()` on a quaternion of non-zero norm that satisfies the invariant,
the norm is one. -/
theorem Quaternion.Norm_Normalize (q : Quaternion) (hn : q.Norm ≠ 0) (hi : q.Invariant) :
    q.Normalize.Norm = 1 := by
  cases hf : q.m_isNormalized with
  | true =>
    have : q.Normalize = q := by simp [Quaternion.Normalize, hf]
    rw [this]
    exact hi hf
  | false =>
    have hsq : q.Norm ^ 2 = q.DotProduct q := by
      unfold Quaternion.Norm
      refine Real.sq_sqrt ?_
      have h0 := mul_self_nonneg q.m_w
      have hx := mul_self_nonneg q.m_v.m_x
      have hy := mul_self_nonneg q.m_v.m_y
      have hz := mul_self_nonneg q.m_v.m_z
      simp only [Quaternion.DotProduct, Vector.DotProduct]
      linarith
    apply Quaternion.Norm_one_of_DotProduct
    simp only [Quaternion.Normalize, hf, Quaternion.opAssign, Quaternion.opDivScalar,
      Quaternion.ofWV, Vector.opDivScalar, Quaternion.DotProduct, Vector.DotProduct,
      Bool.false_eq_true, if_false]
    have : q.m_w / q.Norm * (q.m_w / q.Norm) + (q.m_v.m_x / q.Norm * (q.m_v.m_x / q.Norm) +
        q.m_v.m_y / q.Norm * (q.m_v.m_y / q.Norm) + q.m_v.m_z / q.Norm * (q.m_v.m_z / q.Norm))
        = q.DotProduct q / q.Norm ^ 2 := by
      generalize q.Norm = n
      simp only [Quaternion.DotProduct, Vector.DotProduct]
      ring
    rw [this, ← hsq, div_self (pow_ne_zero 2 hn)]

/-- With the flag unset, `Rotation` is the rotation by the normalized copy. -/
theorem Quaternion.Rotation_eq_Rotation_Normalize (q : Quaternion) (v : Vector)
    (hf : q.m_isNormalized = false) : q.Rotation v = q.Normalize.Rotation v := by
  have hflag : q.Normalize.m_isNormalized = true := by
    simp [Quaternion.Normalize, hf]
  simp only [Quaternion.Rotation, hf, hflag, Bool.false_eq_true, if_false, if_true]

/-- The image of a vector under `Rotation` has the norm of the vector, for every
quaternion of non-zero norm that satisfies the invariant. -/
theorem Quaternion.Norm_Rotation (q : Quaternion) (v : Vector) (hn : q.Norm ≠ 0)
    (hi : q.Invariant) : (q.Rotation v).Norm = v.Norm := by
  cases hf : q.m_isNormalized with
  | true => exact Quaternion.Norm_Rotation_of_Norm_one q v (hi hf)
  | false =>
    rw [Quaternion.Rotation_eq_Rotation_Normalize q v hf]
    exact Quaternion.Norm_Rotation_of_Norm_one _ v (Quaternion.Norm_Normalize q hn hi)

/-- For a quaternion of non-zero norm no division by zero occurs: `RotationChecked`
gives the vector `Rotation` returns. -/
theorem Quaternion.RotationChecked_of_Norm_ne_zero (q : Quaternion) (v : Vector)
    (hn : q.Norm ≠ 0) : q.RotationChecked v = some (q.Rotation v) := by
  cases hf : q.m_isNormalized with
  | true => simp [Quaternion.RotationChecked, Quaternion.Rotation, hf]
  | false => simp [Quaternion.RotationChecked, Quaternion.Rotation, hf, hn]

/-- The image of the reference direction `(1, 0, 0)` under the rotation by a
quaternion of non-zero norm is not the zero vector, whatever the flag. -/
theorem Quaternion.Norm_Rotation_origine_pos (q : Quaternion) (hn : q.Norm ≠ 0) :
    0 < (q.Rotation ⟨1, 0, 0⟩).Norm := by
  have he : Vector.Norm ⟨1, 0, 0⟩ = 1 := by simp [Vector.Norm, Vector.DotProduct]
  cases hf : q.m_isNormalized with
  | false =>
    have hi : q.Invariant := fun h => by rw [hf] at h; exact Bool.noConfusion h
    rw [Quaternion.Norm_Rotation q _ hn hi, he]
    exact one_pos
  | true =>
    have hd : 0 < q.DotProduct q := by
      have h0 : 0 ≤ q.DotProduct q := by
        have hw := mul_self_nonneg q.m_w
        have hx := mul_self_nonneg q.m_v.m_x
        have hy := mul_self_nonneg q.m_v.m_y
        have hz := mul_self_nonneg q.m_v.m_z
        simp only [Quaternion.DotProduct, Vector.DotProduct]
        linarith
      rcases eq_or_lt_of_le h0 with h | h
      · exfalso
        apply hn
        unfold Quaternion.Norm
        rw [← h, Real.sqrt_zero]
      · exact h
    have hr : q.Rotation ⟨1, 0, 0⟩
        = ((quaternionMulVector q ⟨1, 0, 0⟩).opMul q.Conj).GetV := by
      simp [Quaternion.Rotation, hf]
    unfold Vector.Norm
    rw [hr, Quaternion.sandwich_DotProduct]
    apply Real.sqrt_pos.mpr
    have : Vector.DotProduct ⟨1, 0, 0⟩ ⟨1, 0, 0⟩ = 1 := by simp [Vector.DotProduct]
    rw [this, mul_one]
    positivity

/-- The identity of Lagrange for the vector product of `Vector`. -/
theorem Vector.DotProduct_opXor_self (a b : Vector) :
    (a.opXor b).DotProduct (a.opXor b) + (a.DotProduct b) ^ 2
      = a.DotProduct a * b.DotProduct b := by
  simp only [Vector.opXor, Vector.DotProduct]
  ring

/-- The squared norm of the vector product, by the identity of Lagrange. -/
theorem Vector.Norm_opXor_sq (a b : Vector) :
    (a.opXor b).Norm ^ 2 + (a.DotProduct b) ^ 2 = a.Norm ^ 2 * b.Norm ^ 2 := by
  have hL := Vector.DotProduct_opXor_self a b
  have h1 := Vector.Norm_sq (a.opXor b)
  have h2 := Vector.Norm_sq a
  have h3 := Vector.Norm_sq b
  simp only [Vector.DotProduct] at hL ⊢
  rw [h1, h2, h3]
  linarith

/-- The function `atan2` at a point `(cos α, sin α)` of the unit circle with
`-π < α ≤ π`. -/
theorem atan2_sin_cos (α : ℝ) (h0 : -Real.pi < α) (h1 : α ≤ Real.pi) :
    atan2 (Real.sin α) (Real.cos α) = α := by
  have h := Complex.arg_cos_add_sin_mul_I (Set.mem_Ioc.mpr ⟨h0, h1⟩)
  have he : (⟨Real.cos α, Real.sin α⟩ : ℂ) = Complex.cos α + Complex.sin α * Complex.I := by
    apply Complex.ext <;> simp [← Complex.ofReal_cos, ← Complex.ofReal_sin]
  unfold atan2
  rw [he]
  exact h

/-- The function `atan2` at a point `(x, 0)` with `x` not negative. -/
theorem atan2_zero_nonneg (x : ℝ) (hx : 0 ≤ x) : atan2 0 x = 0 := by
  have he : (⟨x, 0⟩ : ℂ) = ((x : ℝ) : ℂ) := rfl
  unfold atan2
  rw [he]
  exact Complex.arg_ofReal_of_nonneg hx

/-- The function `atan2` at a point `(r cos α, r sin α)` with `r` positive and
`-π < α ≤ π`. -/
theorem atan2_mul_sin_cos (r α : ℝ) (hr : 0 < r) (h0 : -Real.pi < α) (h1 : α ≤ Real.pi) :
    atan2 (r * Real.sin α) (r * Real.cos α) = α := by
  have h := Complex.arg_mul_cos_add_sin_mul_I hr (Set.mem_Ioc.mpr ⟨h0, h1⟩)
  have he : (⟨r * Real.cos α, r * Real.sin α⟩ : ℂ)
      = (r : ℂ) * (Complex.cos α + Complex.sin α * Complex.I) := by
    apply Complex.ext <;> simp [← Complex.ofReal_cos, ← Complex.ofReal_sin]
  unfold atan2
  rw [he]
  exact h

/-- For vectors `a` and `b` other than the zero vector, `atan2` of the norm of the
vector product and the dot product is the angle between them: the arc cosine of the
dot product divided by the two norms. -/
theorem Vector.atan2_opXor_DotProduct_angle (a b : Vector) (ha : 0 < a.Norm)
    (hb : 0 < b.Norm) :
    atan2 (a.opXor b).Norm (a.DotProduct b)
      = Real.arccos (a.DotProduct b / (a.Norm * b.Norm)) := by
  have hL := Vector.Norm_opXor_sq a b
  have hR : 0 < a.Norm * b.Norm := mul_pos ha hb
  have hx0 := Vector.Norm_nonneg (a.opXor b)
  have hsq : (a.DotProduct b / (a.Norm * b.Norm)) ^ 2 ≤ 1 := by
    rw [div_pow, div_le_one (by positivity)]
    nlinarith [sq_nonneg (a.opXor b).Norm]
  have hc := (sq_le_one_iff_abs_le_one _).mp hsq
  obtain ⟨hd2, hd1⟩ := abs_le.mp hc
  have hcos : a.Norm * b.Norm * Real.cos (Real.arccos (a.DotProduct b / (a.Norm * b.Norm)))
      = a.DotProduct b := by
    rw [Real.cos_arccos hd2 hd1]
    field_simp
  have hsin : a.Norm * b.Norm * Real.sin (Real.arccos (a.DotProduct b / (a.Norm * b.Norm)))
      = (a.opXor b).Norm := by
    rw [Real.sin_arccos]
    have h1 : 1 - (a.DotProduct b / (a.Norm * b.Norm)) ^ 2
        = ((a.opXor b).Norm / (a.Norm * b.Norm)) ^ 2 := by
      rw [div_pow, div_pow]
      field_simp
      nlinarith
    rw [h1, Real.sqrt_sq (by positivity)]
    field_simp
  have key := atan2_mul_sin_cos (a.Norm * b.Norm)
    (Real.arccos (a.DotProduct b / (a.Norm * b.Norm))) hR
    (by linarith [Real.arccos_nonneg (a.DotProduct b / (a.Norm * b.Norm)), Real.pi_pos])
    (Real.arccos_le_pi _)
  rw [hcos, hsin] at key
  exact key

/-- The orthodromic distance of two quaternions of non-zero norm in terms of the two
rotated reference directions: no division by zero occurs, the two arguments of `atan2`
are not both zero, and the value is `atan2` of the norm of the vector product and the
dot product of the two directions. -/
theorem Quaternion.OrthodromicDistance_eq (q1 q2 : Quaternion) (h1 : q1.Norm ≠ 0)
    (h2 : q2.Norm ≠ 0) :
    Quaternion.OrthodromicDistance q1 q2
      = some (atan2 (((q1.Rotation ⟨1, 0, 0⟩).opXor (q2.Rotation ⟨1, 0, 0⟩)).Norm)
          ((q1.Rotation ⟨1, 0, 0⟩).DotProduct (q2.Rotation ⟨1, 0, 0⟩))) := by
  have p1 := Quaternion.Norm_Rotation_origine_pos q1 h1
  have p2 := Quaternion.Norm_Rotation_origine_pos q2 h2
  have hL := Vector.Norm_opXor_sq (q1.Rotation ⟨1, 0, 0⟩) (q2.Rotation ⟨1, 0, 0⟩)
  have hne : ¬ (((q1.Rotation ⟨1, 0, 0⟩).opXor (q2.Rotation ⟨1, 0, 0⟩)).Norm = 0 ∧
      (q1.Rotation ⟨1, 0, 0⟩).DotProduct (q2.Rotation ⟨1, 0, 0⟩) = 0) := by
    rintro ⟨e1, e2⟩
    rw [e1, e2] at hL
    have : 0 < (q1.Rotation ⟨1, 0, 0⟩).Norm ^ 2 * (q2.Rotation ⟨1, 0, 0⟩).Norm ^ 2 := by
      positivity
    linarith
  simp only [Quaternion.OrthodromicDistance,
    Quaternion.RotationChecked_of_Norm_ne_zero q1 _ h1,
    Quaternion.RotationChecked_of_Norm_ne_zero q2 _ h2, Quaternion.opMul, Quaternion.ofWV,
    Quaternion.ofV, Vector.opMul, scalarMulVector, Vector.opMulScalar, Vector.opAdd, zero_mul,
    zero_add, zero_sub, neg_neg, atan2Checked]
  rw [if_neg hne]

/-- C7 (amended): for all quaternions `q1`, `q2` of non-zero norm,
`OrthodromicDistance(q1, q2)` is the angle between the rotated reference directions
`r1 = q1.Rotation(Vector(1,0,0))` and `r2 = q2.Rotation(Vector(1,0,0))`, that is
`arccos(DotProduct(r1, r2) / (Norm(r1) * Norm(r2)))`, and lies in `[0, π]`; when `q1`
and `q2` satisfy the flag invariant (norm one whenever `m_isNormalized` is set), `r1`
and `r2` are unit vectors and the distance is `arccos(DotProduct(r1, r2))`. -/
theorem Quaternion.OrthodromicDistance_eq_arccos (q1 q2 : Quaternion)
    (h1 : q1.Norm ≠ 0) (h2 : q2.Norm ≠ 0) :
    ∃ d, Quaternion.OrthodromicDistance q1 q2 = some d ∧
      d = Real.arccos ((q1.Rotation ⟨1, 0, 0⟩).DotProduct (q2.Rotation ⟨1, 0, 0⟩)
            / ((q1.Rotation ⟨1, 0, 0⟩).Norm * (q2.Rotation ⟨1, 0, 0⟩).Norm)) ∧
      0 ≤ d ∧ d ≤ Real.pi ∧
      (q1.Invariant → q2.Invariant →
        d = Real.arccos ((q1.Rotation ⟨1, 0, 0⟩).DotProduct (q2.Rotation ⟨1, 0, 0⟩))) := by
  have p1 := Quaternion.Norm_Rotation_origine_pos q1 h1
  have p2 := Quaternion.Norm_Rotation_origine_pos q2 h2
  have hang := Vector.atan2_opXor_DotProduct_angle _ _ p1 p2
  refine ⟨_, Quaternion.OrthodromicDistance_eq q1 q2 h1 h2, hang, ?_, ?_, ?_⟩
  · rw [hang]; exact Real.arccos_nonneg _
  · rw [hang]; exact Real.arccos_le_pi _
  · intro i1 i2
    have he : Vector.Norm ⟨1, 0, 0⟩ = 1 := by simp [Vector.Norm, Vector.DotProduct]
    have r1 : (q1.Rotation ⟨1, 0, 0⟩).Norm = 1 := by
      rw [Quaternion.Norm_Rotation q1 _ h1 i1, he]
    have r2 : (q2.Rotation ⟨1, 0, 0⟩).Norm = 1 := by
      rw [Quaternion.Norm_Rotation q2 _ h2 i2, he]
    rw [hang, r1, r2, mul_one, div_one]

/-- C7 (amended) at `q1 = (1, (0,0,0))` and `q2 = (0, (0,0,2))`, of norms one and two,
both with the flag unset. -/
theorem Quaternion.OrthodromicDistance_eq_arccos_witness :
    ∃ d, Quaternion.OrthodromicDistance ⟨1, ⟨0, 0, 0⟩, false⟩ ⟨0, ⟨0, 0, 2⟩, false⟩ = some d ∧
      d = Real.arccos ((Quaternion.Rotation ⟨1, ⟨0, 0, 0⟩, false⟩ ⟨1, 0, 0⟩).DotProduct
              (Quaternion.Rotation ⟨0, ⟨0, 0, 2⟩, false⟩ ⟨1, 0, 0⟩)
            / ((Quaternion.Rotation ⟨1, ⟨0, 0, 0⟩, false⟩ ⟨1, 0, 0⟩).Norm
                * (Quaternion.Rotation ⟨0, ⟨0, 0, 2⟩, false⟩ ⟨1, 0, 0⟩).Norm)) ∧
      0 ≤ d ∧ d ≤ Real.pi ∧
      (Quaternion.Invariant ⟨1, ⟨0, 0, 0⟩, false⟩ →
        Quaternion.Invariant ⟨0, ⟨0, 0, 2⟩, false⟩ →
        d = Real.arccos ((Quaternion.Rotation ⟨1, ⟨0, 0, 0⟩, false⟩ ⟨1, 0, 0⟩).DotProduct
              (Quaternion.Rotation ⟨0, ⟨0, 0, 2⟩, false⟩ ⟨1, 0, 0⟩))) :=
  Quaternion.OrthodromicDistance_eq_arccos ⟨1, ⟨0, 0, 0⟩, false⟩ ⟨0, ⟨0, 0, 2⟩, false⟩
    (by simp [Quaternion.Norm, Quaternion.DotProduct, Vector.DotProduct])
    (by
      unfold Quaternion.Norm
      rw [Real.sqrt_ne_zero']
      simp only [Quaternion.DotProduct, Vector.DotProduct]
      norm_num)

/-- The orthodromic distance of a quaternion of non-zero norm to itself is zero,
whatever the norm and the flag. -/
theorem Quaternion.OrthodromicDistance_self_eq_zero (q : Quaternion) (hn : q.Norm ≠ 0) :
    Quaternion.OrthodromicDistance q q = some 0 := by
  rw [Quaternion.OrthodromicDistance_eq q q hn hn]
  have hx : ((q.Rotation ⟨1, 0, 0⟩).opXor (q.Rotation ⟨1, 0, 0⟩)).Norm = 0 := by
    have : (q.Rotation ⟨1, 0, 0⟩).opXor (q.Rotation ⟨1, 0, 0⟩) = ⟨0, 0, 0⟩ := by
      simp only [Vector.opXor, Vector.mk.injEq]
      refine ⟨by ring, by ring, by ring⟩
    rw [this]
    simp [Vector.Norm, Vector.DotProduct]
  rw [hx]
  congr 1
  apply atan2_zero_nonneg
  have px := mul_self_nonneg (q.Rotation ⟨1, 0, 0⟩).m_x
  have py := mul_self_nonneg (q.Rotation ⟨1, 0, 0⟩).m_y
  have pz := mul_self_nonneg (q.Rotation ⟨1, 0, 0⟩).m_z
  simp only [Vector.DotProduct]
  linarith

/-- C7 (as stated) fails at `q1 = q2 = (1/2, (0,0,0))` with the flag set: the norm is
`1/2`, not zero, both rotated reference directions are `(1/4, 0, 0)`, the orthodromic
distance is `0`, the angle between them, and the arc cosine of their dot product `1/16`
is not `0`. -/
theorem Quaternion.OrthodromicDistance_flag_set_counterexample :
    Quaternion.Norm ⟨1 / 2, ⟨0, 0, 0⟩, true⟩ ≠ 0 ∧
    Quaternion.Rotation ⟨1 / 2, ⟨0, 0, 0⟩, true⟩ ⟨1, 0, 0⟩ = ⟨1 / 4, 0, 0⟩ ∧
    Quaternion.OrthodromicDistance ⟨1 / 2, ⟨0, 0, 0⟩, true⟩ ⟨1 / 2, ⟨0, 0, 0⟩, true⟩
      = some 0 ∧
    Quaternion.OrthodromicDistance ⟨1 / 2, ⟨0, 0, 0⟩, true⟩ ⟨1 / 2, ⟨0, 0, 0⟩, true⟩
      ≠ some (Real.arccos ((Quaternion.Rotation ⟨1 / 2, ⟨0, 0, 0⟩, true⟩ ⟨1, 0, 0⟩).DotProduct
          (Quaternion.Rotation ⟨1 / 2, ⟨0, 0, 0⟩, true⟩ ⟨1, 0, 0⟩))) := by
  have hr : Quaternion.Rotation ⟨1 / 2, ⟨0, 0, 0⟩, true⟩ ⟨1, 0, 0⟩ = ⟨1 / 4, 0, 0⟩ := by
    simp only [Quaternion.Rotation, quaternionMulVector, Quaternion.opMul, Quaternion.ofWV,
      Quaternion.ofV, Quaternion.Conj, Quaternion.GetV, Vector.DotProduct, Vector.opMul,
      Vector.opAdd, Vector.opXor, Vector.opNeg, scalarMulVector, Vector.opMulScalar, if_true,
      Vector.mk.injEq]
    refine ⟨by norm_num, by norm_num, by norm_num⟩
  have hn : Quaternion.Norm ⟨1 / 2, ⟨0, 0, 0⟩, true⟩ ≠ 0 := by
    unfold Quaternion.Norm
    rw [Real.sqrt_ne_zero']
    simp only [Quaternion.DotProduct, Vector.DotProduct]
    norm_num
  have h0 := Quaternion.OrthodromicDistance_self_eq_zero _ hn
  refine ⟨hn, hr, h0, ?_⟩
  rw [h0, hr]
  intro h
  have h1 := Real.arccos_eq_zero.mp (Option.some.inj h).symm
  simp only [Vector.DotProduct] at h1
  norm_num at h1

/-- C8 (amended): for all quaternions `q1`, `q2` of non-zero norm, with the flag set or
unset, `OrthodromicDistance(q1, q2)` and `OrthodromicDistance(q2, q1)` are the same
real number, and `OrthodromicDistance(q1, q1) = 0` and `OrthodromicDistance(q2, q2) = 0`. -/
theorem Quaternion.OrthodromicDistance_symm_and_self (q1 q2 : Quaternion)
    (h1 : q1.Norm ≠ 0) (h2 : q2.Norm ≠ 0) :
    (∃ d, Quaternion.OrthodromicDistance q1 q2 = some d ∧
      Quaternion.OrthodromicDistance q2 q1 = some d) ∧
    Quaternion.OrthodromicDistance q1 q1 = some 0 ∧
    Quaternion.OrthodromicDistance q2 q2 = some 0 := by
  refine ⟨⟨_, Quaternion.OrthodromicDistance_eq q1 q2 h1 h2, ?_⟩,
    Quaternion.OrthodromicDistance_self_eq_zero q1 h1,
    Quaternion.OrthodromicDistance_self_eq_zero q2 h2⟩
  rw [Quaternion.OrthodromicDistance_eq q2 q1 h2 h1]
  have hx : ((q1.Rotation ⟨1, 0, 0⟩).opXor (q2.Rotation ⟨1, 0, 0⟩)).Norm
      = ((q2.Rotation ⟨1, 0, 0⟩).opXor (q1.Rotation ⟨1, 0, 0⟩)).Norm := by
    unfold Vector.Norm
    congr 1
    simp only [Vector.opXor, Vector.DotProduct]
    ring
  have hd : (q1.Rotation ⟨1, 0, 0⟩).DotProduct (q2.Rotation ⟨1, 0, 0⟩)
      = (q2.Rotation ⟨1, 0, 0⟩).DotProduct (q1.Rotation ⟨1, 0, 0⟩) := by
    simp only [Vector.DotProduct]
    ring
  rw [hx, hd]

/-- C8 (amended) at `q1 = (1/2, (0,0,0))` with the flag set and `q2 = (0, (0,0,2))`
with the flag unset, of norms `1/2` and `2`. -/
theorem Quaternion.OrthodromicDistance_symm_and_self_witness :
    (∃ d, Quaternion.OrthodromicDistance ⟨1 / 2, ⟨0, 0, 0⟩, true⟩ ⟨0, ⟨0, 0, 2⟩, false⟩
        = some d ∧
      Quaternion.OrthodromicDistance ⟨0, ⟨0, 0, 2⟩, false⟩ ⟨1 / 2, ⟨0, 0, 0⟩, true⟩
        = some d) ∧
    Quaternion.OrthodromicDistance ⟨1 / 2, ⟨0, 0, 0⟩, true⟩ ⟨1 / 2, ⟨0, 0, 0⟩, true⟩
      = some 0 ∧
    Quaternion.OrthodromicDistance ⟨0, ⟨0, 0, 2⟩, false⟩ ⟨0, ⟨0, 0, 2⟩, false⟩ = some 0 :=
  Quaternion.OrthodromicDistance_symm_and_self ⟨1 / 2, ⟨0, 0, 0⟩, true⟩
    ⟨0, ⟨0, 0, 2⟩, false⟩
    (by
      unfold Quaternion.Norm
      rw [Real.sqrt_ne_zero']
      simp only [Quaternion.DotProduct, Vector.DotProduct]
      norm_num)
    (by
      unfold Quaternion.Norm
      rw [Real.sqrt_ne_zero']
      simp only [Quaternion.DotProduct, Vector.DotProduct]
      norm_num)

/-- C8 (as stated) fails at the default-constructed quaternion `Quaternion()`, of norm
zero with the flag unset: `Normalize()` divides `0` by `0`, the rotated reference
direction has no value and `OrthodromicDistance(q, q)` is not `0`; with the flag set
the two arguments of `atan2` are both zero and the distance is not `0` either. -/
theorem Quaternion.OrthodromicDistance_zero_norm_counterexample :
    Quaternion.Norm Quaternion.default = 0 ∧
    Quaternion.RotationChecked Quaternion.default ⟨1, 0, 0⟩ = none ∧
    Quaternion.OrthodromicDistance Quaternion.default Quaternion.default = none ∧
    Quaternion.OrthodromicDistance Quaternion.default Quaternion.default ≠ some 0 ∧
    Quaternion.OrthodromicDistance ⟨0, ⟨0, 0, 0⟩, true⟩ ⟨0, ⟨0, 0, 0⟩, true⟩ ≠ some 0 := by
  have hn : Quaternion.Norm Quaternion.default = 0 := by
    simp [Quaternion.Norm, Quaternion.default, Quaternion.DotProduct, Vector.DotProduct,
      Vector.zero]
  have hr : Quaternion.RotationChecked Quaternion.default ⟨1, 0, 0⟩ = none := by
    have hf : Quaternion.default.m_isNormalized = false := rfl
    simp [Quaternion.RotationChecked, hf, hn]
  have ho : Quaternion.OrthodromicDistance Quaternion.default Quaternion.default = none := by
    simp only [Quaternion.OrthodromicDistance, hr]
  have hz : Quaternion.OrthodromicDistance ⟨0, ⟨0, 0, 0⟩, true⟩ ⟨0, ⟨0, 0, 0⟩, true⟩
      = none := by
    simp [Quaternion.OrthodromicDistance, Quaternion.RotationChecked, quaternionMulVector,
      Quaternion.opMul, Quaternion.ofWV, Quaternion.ofV, Quaternion.Conj, Quaternion.GetV,
      Vector.DotProduct, Vector.opMul, Vector.opAdd, Vector.opXor, Vector.opNeg,
      scalarMulVector, Vector.opMulScalar, Vector.Norm, atan2Checked]
  refine ⟨hn, hr, ho, ?_, ?_⟩
  · rw [ho]
    exact fun h => Option.noConfusion h
  · rw [hz]
    exact fun h => Option.noConfusion h

/-! ### The exponential map -/

/-- When `Norm(v) = 0` the vector part of `Exp(q)` is `v`. -/
theorem Quaternion.Exp_m_v_of_Norm_zero (q : Quaternion) (h : q.m_v.Norm = 0) :
    (Quaternion.Exp q).m_v = q.m_v := by
  simp [Quaternion.Exp, Quaternion.ofWV, h]

/-- C9 (evaluation of the code): at `q = (1, (1, 0, 0))`, where `Norm(v) = 1` is not
zero, the vector part of `Exp(q)` is `(sin 1, 0, 0)` while `e^w` times
`sin(Norm(v)) * v / Norm(v)` is `(e * sin 1, 0, 0)`: the vector part of the result does
not carry the factor `e^w`, the scalar part `cos(1) * e` does. -/
theorem Quaternion.Exp_vector_part_unscaled :
    Vector.Norm ⟨1, 0, 0⟩ ≠ 0 ∧
    (Quaternion.Exp ⟨1, ⟨1, 0, 0⟩, false⟩).m_w = Real.cos 1 * Real.exp 1 ∧
    (Quaternion.Exp ⟨1, ⟨1, 0, 0⟩, false⟩).m_v = ⟨Real.sin 1, 0, 0⟩ ∧
    (Quaternion.ExpSpec ⟨1, ⟨1, 0, 0⟩, false⟩).m_v = ⟨Real.exp 1 * Real.sin 1, 0, 0⟩ ∧
    (Quaternion.Exp ⟨1, ⟨1, 0, 0⟩, false⟩).m_v ≠ (Quaternion.ExpSpec ⟨1, ⟨1, 0, 0⟩, false⟩).m_v := by
  have hn : Vector.Norm ⟨1, 0, 0⟩ = 1 := by simp [Vector.Norm, Vector.DotProduct]
  have h0 : (Quaternion.Exp ⟨1, ⟨1, 0, 0⟩, false⟩).m_w = Real.cos 1 * Real.exp 1 := by
    simp [Quaternion.Exp, Quaternion.ofWV, hn]
  have h1 : (Quaternion.Exp ⟨1, ⟨1, 0, 0⟩, false⟩).m_v = ⟨Real.sin 1, 0, 0⟩ := by
    simp [Quaternion.Exp, Quaternion.ofWV, hn, scalarMulVector, Vector.opMulScalar,
      Vector.opDivScalar]
  have h2 : (Quaternion.ExpSpec ⟨1, ⟨1, 0, 0⟩, false⟩).m_v
      = ⟨Real.exp 1 * Real.sin 1, 0, 0⟩ := by
    simp [Quaternion.ExpSpec, Quaternion.opMulScalar, Quaternion.ofWV, hn, scalarMulVector,
      Vector.opMulScalar, Vector.opDivScalar]
  refine ⟨by rw [hn]; exact one_ne_zero, h0, h1, h2, ?_⟩
  rw [h1, h2]
  intro h
  have hx : Real.sin 1 = Real.exp 1 * Real.sin 1 := congrArg Vector.m_x h
  have hs : 0 < Real.sin 1 :=
    Real.sin_pos_of_pos_of_lt_pi one_pos (by linarith [Real.pi_gt_three])
  have he := Real.add_one_lt_exp (one_ne_zero : (1 : ℝ) ≠ 0)
  nlinarith

/-! ### The flag invariant under the writing operations -/

/-- Every constructor leaves the flag unset, so the invariant holds after it. -/
theorem Quaternion.Invariant_constructors (w : ℝ) (v : Vector) :
    Quaternion.default.Invariant ∧ (Quaternion.ofWV w v).Invariant ∧
    (Quaternion.ofW w).Invariant ∧ (Quaternion.ofV v).Invariant :=
  ⟨fun h => Bool.noConfusion h, fun h => Bool.noConfusion h, fun h => Bool.noConfusion h,
   fun h => Bool.noConfusion h⟩

/-- The call `Normalize()` on a quaternion of non-zero norm keeps the invariant. -/
theorem Quaternion.Invariant_Normalize (q : Quaternion) (hn : q.Norm ≠ 0)
    (hi : q.Invariant) : q.Normalize.Invariant :=
  fun _ => Quaternion.Norm_Normalize q hn hi

/-- C10 (evaluation of the code): the receiver `a = Quaternion(1)` after
`a.Normalize()` is `(1, (0,0,0))` with the flag set and satisfies the invariant; after
`a = Quaternion(2)` the flag is still set and the norm is `2`, so the invariant does not
hold: the copy assignment does not preserve it. -/
theorem Quaternion.opAssign_breaks_Invariant :
    (Quaternion.ofW 1).Normalize = ⟨1, ⟨0, 0, 0⟩, true⟩ ∧
    (Quaternion.ofW 1).Normalize.Invariant ∧
    (Quaternion.ofW 2).Invariant ∧
    ((Quaternion.ofW 1).Normalize.opAssign (Quaternion.ofW 2)).m_isNormalized = true ∧
    ((Quaternion.ofW 1).Normalize.opAssign (Quaternion.ofW 2)).Norm = 2 ∧
    ¬ ((Quaternion.ofW 1).Normalize.opAssign (Quaternion.ofW 2)).Invariant := by
  have hn1 : (Quaternion.ofW 1).Norm = 1 := by
    simp [Quaternion.ofW, Quaternion.Norm, Quaternion.DotProduct, Vector.DotProduct,
      Vector.zero]
  have h1 : (Quaternion.ofW 1).Normalize = ⟨1, ⟨0, 0, 0⟩, true⟩ := by
    rw [Quaternion.Normalize_of_Norm_one _ rfl hn1]
    rfl
  have h2 : ((Quaternion.ofW 1).Normalize.opAssign (Quaternion.ofW 2)).Norm = 2 := by
    rw [h1]
    simp only [Quaternion.opAssign, Quaternion.ofW, Quaternion.Norm, Quaternion.DotProduct,
      Vector.DotProduct, Vector.zero, mul_zero, add_zero]
    exact Real.sqrt_mul_self (by norm_num)
  have h3 : ((Quaternion.ofW 1).Normalize.opAssign (Quaternion.ofW 2)).m_isNormalized
      = true := by
    rw [h1]
    rfl
  refine ⟨h1, ?_, fun h => Bool.noConfusion h, h3, h2, ?_⟩
  · exact Quaternion.Invariant_Normalize _ (by rw [hn1]; exact one_ne_zero)
      (fun h => Bool.noConfusion h)
  · intro hi
    have := hi h3
    rw [h2] at this
    norm_num at this

/-! ### Vector product and dot product -/

/-- The dot product of a vector with itself is not negative. -/
theorem Vector.DotProduct_self_nonneg (a : Vector) : 0 ≤ a.DotProduct a := by
  have hx := mul_self_nonneg a.m_x
  have hy := mul_self_nonneg a.m_y
  have hz := mul_self_nonneg a.m_z
  simp only [Vector.DotProduct]
  linarith

/-- C19: for all vectors `a` and `b`, `Norm(a ^ b) <= Norm(a) * Norm(b)`, with equality
if and only if `DotProduct(a, b) = 0`; moreover `a ^ b = -(b ^ a)` and
`DotProduct(a, b) = DotProduct(b, a)`. -/
theorem Vector.opXor_Norm_le (a b : Vector) :
    (a.opXor b).Norm ≤ a.Norm * b.Norm ∧
    ((a.opXor b).Norm = a.Norm * b.Norm ↔ a.DotProduct b = 0) ∧
    a.opXor b = (b.opXor a).opNeg ∧
    a.DotProduct b = b.DotProduct a := by
  have hL := Vector.DotProduct_opXor_self a b
  have ha := Vector.DotProduct_self_nonneg a
  have hb := Vector.DotProduct_self_nonneg b
  have hmul : a.Norm * b.Norm = Real.sqrt (a.DotProduct a * b.DotProduct b) := by
    unfold Vector.Norm
    rw [Real.sqrt_mul ha]
  refine ⟨?_, ?_, ?_, ?_⟩
  · rw [hmul]
    unfold Vector.Norm
    apply Real.sqrt_le_sqrt
    have := sq_nonneg (a.DotProduct b)
    linarith
  · rw [hmul]
    unfold Vector.Norm
    rw [Real.sqrt_inj (Vector.DotProduct_self_nonneg _) (mul_nonneg ha hb)]
    constructor
    · intro h
      have h0 : (a.DotProduct b) ^ 2 = 0 := by linarith
      exact pow_eq_zero_iff (two_ne_zero) |>.mp h0
    · intro h
      rw [h] at hL
      linarith
  · simp only [Vector.opXor, Vector.opNeg, Vector.mk.injEq]
    refine ⟨by ring, by ring, by ring⟩
  · simp only [Vector.DotProduct]
    ring

/-! ### Rotation by a quaternion whose flag is unset -/

/-- With the flag unset, `Rotation` is the sandwich product with the parts of the
receiver divided by its norm. -/
theorem Quaternion.Rotation_flag_unset (q : Quaternion) (v : Vector)
    (hf : q.m_isNormalized = false) :
    q.Rotation v
      = ((quaternionMulVector ⟨q.m_w / q.Norm, q.m_v.opDivScalar q.Norm, true⟩ v).opMul
          (Quaternion.Conj ⟨q.m_w / q.Norm, q.m_v.opDivScalar q.Norm, true⟩)).GetV := by
  simp [Quaternion.Rotation, hf, Quaternion.Normalize, Quaternion.opAssign,
    Quaternion.opDivScalar, Quaternion.ofWV]

/-- The norm of a Hamilton product is the product of the norms. -/
theorem Quaternion.Norm_opMul (a b : Quaternion) : (a.opMul b).Norm = a.Norm * b.Norm := by
  have h : (a.opMul b).DotProduct (a.opMul b) = a.DotProduct a * b.DotProduct b := by
    simp only [Quaternion.opMul, Quaternion.ofWV, Quaternion.DotProduct, Vector.DotProduct,
      Vector.opMul, Vector.opAdd, Vector.opXor, scalarMulVector, Vector.opMulScalar]
    ring
  have ha : 0 ≤ a.DotProduct a := by
    have h0 := mul_self_nonneg a.m_w
    have h1 := Vector.DotProduct_self_nonneg a.m_v
    simp only [Quaternion.DotProduct]
    linarith
  unfold Quaternion.Norm
  rw [h, Real.sqrt_mul ha]

/-- C11: for every quaternion `q` of non-zero norm whose flag is unset and every vector
`v`, `q.Rotation(v)` is the vector part of `q * Quaternion(v) * q.Inv()`, and the
receiver is the same after the call. -/
theorem Quaternion.Rotation_eq_opMul_Inv (q : Quaternion) (v : Vector) (hn : q.Norm ≠ 0)
    (hf : q.m_isNormalized = false) :
    (q.RotationCall v).2 = ((quaternionMulVector q v).opMul q.Inv).GetV ∧
    (q.RotationCall v).2 = q.Rotation v ∧
    (q.RotationCall v).1 = q := by
  have hcall : (q.RotationCall v).2 = q.Rotation v := by
    simp [Quaternion.RotationCall, Quaternion.Rotation, hf]
  have hself : (q.RotationCall v).1 = q := by
    simp [Quaternion.RotationCall, hf]
  refine ⟨?_, hcall, hself⟩
  rw [hcall, Quaternion.Rotation_flag_unset q v hf]
  simp only [Quaternion.Inv, hf, quaternionMulVector, Quaternion.opMul, Quaternion.ofWV,
    Quaternion.ofV, Quaternion.Conj, Quaternion.GetV, Quaternion.opDivScalar,
    Vector.DotProduct, Vector.opMul, Vector.opAdd, Vector.opXor, Vector.opNeg,
    scalarMulVector, Vector.opMulScalar, Vector.opDivScalar, Bool.false_eq_true, if_false,
    Vector.mk.injEq]
  generalize q.Norm = n at hn
  refine ⟨?_, ?_, ?_⟩ <;> field_simp <;> ring

/-- C11 at `q = (0, (0, 0, 2))`, of norm two with the flag unset, and `v = (1, 0, 0)`. -/
theorem Quaternion.Rotation_eq_opMul_Inv_witness :
    (Quaternion.RotationCall ⟨0, ⟨0, 0, 2⟩, false⟩ ⟨1, 0, 0⟩).2
      = ((quaternionMulVector ⟨0, ⟨0, 0, 2⟩, false⟩ ⟨1, 0, 0⟩).opMul
          (Quaternion.Inv ⟨0, ⟨0, 0, 2⟩, false⟩)).GetV ∧
    (Quaternion.RotationCall ⟨0, ⟨0, 0, 2⟩, false⟩ ⟨1, 0, 0⟩).2
      = Quaternion.Rotation ⟨0, ⟨0, 0, 2⟩, false⟩ ⟨1, 0, 0⟩ ∧
    (Quaternion.RotationCall ⟨0, ⟨0, 0, 2⟩, false⟩ ⟨1, 0, 0⟩).1 = ⟨0, ⟨0, 0, 2⟩, false⟩ :=
  Quaternion.Rotation_eq_opMul_Inv ⟨0, ⟨0, 0, 2⟩, false⟩ ⟨1, 0, 0⟩
    (by
      have h : Quaternion.Norm ⟨0, ⟨0, 0, 2⟩, false⟩ = 2 := by
        simp only [Quaternion.Norm, Quaternion.DotProduct, Vector.DotProduct, mul_zero,
          zero_add]
        exact Real.sqrt_mul_self (by norm_num)
      rw [h]
      norm_num)
    rfl

/-- C20: for all quaternions `q1`, `q2` of non-zero norm whose flag is unset and every
vector `v`, `(q1 * q2).Rotation(v) = q1.Rotation(q2.Rotation(v))`. -/
theorem Quaternion.Rotation_opMul (q1 q2 : Quaternion) (v : Vector)
    (_h1 : q1.Norm ≠ 0) (_h2 : q2.Norm ≠ 0)
    (f1 : q1.m_isNormalized = false) (f2 : q2.m_isNormalized = false) :
    (q1.opMul q2).Rotation v = q1.Rotation (q2.Rotation v) := by
  have f12 : (q1.opMul q2).m_isNormalized = false := rfl
  rw [Quaternion.Rotation_flag_unset _ v f12, Quaternion.Rotation_flag_unset q1 _ f1,
    Quaternion.Rotation_flag_unset q2 v f2, Quaternion.Norm_opMul]
  simp only [quaternionMulVector, Quaternion.opMul, Quaternion.ofWV, Quaternion.ofV,
    Quaternion.Conj, Quaternion.GetV, Vector.DotProduct, Vector.opMul, Vector.opAdd,
    Vector.opXor, Vector.opNeg, scalarMulVector, Vector.opMulScalar, Vector.opDivScalar,
    Vector.mk.injEq]
  generalize q1.Norm = n1
  generalize q2.Norm = n2
  refine ⟨?_, ?_, ?_⟩ <;> ring

/-- C20 at `q1 = (1, (0, 0, 1))`, `q2 = (1, (1, 0, 0))`, both with the flag unset, and
`v = (0, 1, 0)`. -/
theorem Quaternion.Rotation_opMul_witness :
    (Quaternion.opMul ⟨1, ⟨0, 0, 1⟩, false⟩ ⟨1, ⟨1, 0, 0⟩, false⟩).Rotation ⟨0, 1, 0⟩
      = Quaternion.Rotation ⟨1, ⟨0, 0, 1⟩, false⟩
          (Quaternion.Rotation ⟨1, ⟨1, 0, 0⟩, false⟩ ⟨0, 1, 0⟩) :=
  Quaternion.Rotation_opMul ⟨1, ⟨0, 0, 1⟩, false⟩ ⟨1, ⟨1, 0, 0⟩, false⟩ ⟨0, 1, 0⟩
    (by
      unfold Quaternion.Norm
      rw [Real.sqrt_ne_zero']
      simp only [Quaternion.DotProduct, Vector.DotProduct]
      norm_num)
    (by
      unfold Quaternion.Norm
      rw [Real.sqrt_ne_zero']
      simp only [Quaternion.DotProduct, Vector.DotProduct]
      norm_num)
    rfl rfl

/-! ### Euler angles and spherical coordinates -/

/-- The quaternion of a rotation about a unit coordinate axis: the axis is not
rescaled by `QuaternionFromAngleAxis`. -/
theorem Quaternion.QuaternionFromAngleAxis_axes (t : ℝ) :
    Quaternion.QuaternionFromAngleAxis t ⟨0, 0, 1⟩
        = Quaternion.ofWV (Real.cos (t / 2)) ⟨0, 0, Real.sin (t / 2)⟩ ∧
    Quaternion.QuaternionFromAngleAxis t ⟨0, 1, 0⟩
        = Quaternion.ofWV (Real.cos (t / 2)) ⟨0, Real.sin (t / 2), 0⟩ ∧
    Quaternion.QuaternionFromAngleAxis t ⟨1, 0, 0⟩
        = Quaternion.ofWV (Real.cos (t / 2)) ⟨Real.sin (t / 2), 0, 0⟩ := by
  refine ⟨?_, ?_, ?_⟩ <;>
    simp [Quaternion.QuaternionFromAngleAxis, Quaternion.ofWV, Vector.Norm, Vector.DotProduct,
      scalarMulVector, Vector.opMulScalar, Vector.opDivScalar]

/-- C12: for all `yaw`, `pitch`, `roll`, `FromEuler(yaw, pitch, roll)` is the product
`QuaternionFromAngleAxis(yaw, Vector(0,0,1)) * QuaternionFromAngleAxis(pitch,
Vector(0,1,0)) * QuaternionFromAngleAxis(roll, Vector(1,0,0))` and has norm one. -/
theorem Quaternion.FromEuler_eq_ZYX (yaw pitch roll : ℝ) :
    Quaternion.FromEuler yaw pitch roll
      = ((Quaternion.QuaternionFromAngleAxis yaw ⟨0, 0, 1⟩).opMul
          (Quaternion.QuaternionFromAngleAxis pitch ⟨0, 1, 0⟩)).opMul
          (Quaternion.QuaternionFromAngleAxis roll ⟨1, 0, 0⟩) ∧
    (Quaternion.FromEuler yaw pitch roll).Norm = 1 := by
  have hy : yaw * 0.5 = yaw / 2 := by ring
  have hp : pitch * 0.5 = pitch / 2 := by ring
  have hr : roll * 0.5 = roll / 2 := by ring
  constructor
  · rw [(Quaternion.QuaternionFromAngleAxis_axes yaw).1,
      (Quaternion.QuaternionFromAngleAxis_axes pitch).2.1,
      (Quaternion.QuaternionFromAngleAxis_axes roll).2.2]
    simp only [Quaternion.FromEuler, hy, hp, hr, Quaternion.opMul, Quaternion.ofWV,
      Vector.DotProduct, Vector.opMul, Vector.opAdd, Vector.opXor, scalarMulVector,
      Vector.opMulScalar, Quaternion.mk.injEq, Vector.mk.injEq, and_true]
    refine ⟨by ring, by ring, by ring, by ring⟩
  · apply Quaternion.Norm_one_of_DotProduct
    simp only [Quaternion.FromEuler, hy, hp, hr, Quaternion.ofWV, Quaternion.DotProduct,
      Vector.DotProduct]
    have e1 := Real.sin_sq_add_cos_sq (yaw / 2)
    have e2 := Real.sin_sq_add_cos_sq (pitch / 2)
    have e3 := Real.sin_sq_add_cos_sq (roll / 2)
    have key : ∀ a b c d e f : ℝ, a ^ 2 + b ^ 2 = 1 → c ^ 2 + d ^ 2 = 1 → e ^ 2 + f ^ 2 = 1 →
        (b * f * d + a * e * c) * (b * f * d + a * e * c) +
          ((b * e * d - a * f * c) * (b * e * d - a * f * c) +
           (b * f * c + a * e * d) * (b * f * c + a * e * d) +
           (a * f * d - b * e * c) * (a * f * d - b * e * c)) = 1 := by
      intro a b c d e f h1 h2 h3
      have : (b * f * d + a * e * c) * (b * f * d + a * e * c) +
          ((b * e * d - a * f * c) * (b * e * d - a * f * c) +
           (b * f * c + a * e * d) * (b * f * c + a * e * d) +
           (a * f * d - b * e * c) * (a * f * d - b * e * c))
          = (a ^ 2 + b ^ 2) * (c ^ 2 + d ^ 2) * (e ^ 2 + f ^ 2) := by ring
      rw [this, h1, h2, h3]
      norm_num
    exact key _ _ _ _ _ _ e1 e2 e3

/-- The components of a unit vector in terms of `ToSpherical()`: the cosine and sine
of `phi` and, away from the poles, of `theta`. -/
theorem Vector.FromSpherical_ToSpherical_of_unit (v : Vector) (hv : v.Norm = 1) :
    Vector.FromSpherical v.ToSpherical.1 v.ToSpherical.2 = v := by
  have hsq := Vector.Norm_sq v
  rw [hv] at hsq
  have hz1 : v.m_z ≤ 1 := by nlinarith [mul_self_nonneg v.m_x, mul_self_nonneg v.m_y]
  have hz2 : -1 ≤ v.m_z := by nlinarith [mul_self_nonneg v.m_x, mul_self_nonneg v.m_y]
  have hcos : Real.cos (Real.arccos v.m_z) = v.m_z := Real.cos_arccos hz2 hz1
  have hr : 1 - v.m_z ^ 2 = v.m_x * v.m_x + v.m_y * v.m_y := by linarith
  have habs : Complex.abs ⟨v.m_x, v.m_y⟩ = Real.sqrt (v.m_x * v.m_x + v.m_y * v.m_y) := by
    rw [Complex.abs_apply, Complex.normSq_mk]
  have hsin : Real.sin (Real.arccos v.m_z) = Complex.abs ⟨v.m_x, v.m_y⟩ := by
    rw [Real.sin_arccos, hr, habs]
  cases hm : v with
  | mk x y z =>
    rw [hm] at hsin hcos
    simp only [Vector.ToSpherical, Vector.FromSpherical, atan2, Vector.mk.injEq]
    have hn : Vector.Norm ⟨x, y, z⟩ = 1 := by rw [← hm]; exact hv
    rw [hn, div_one, hsin, hcos]
    by_cases h0 : (⟨x, y⟩ : ℂ) = 0
    · have hx : x = 0 := congrArg Complex.re h0
      have hy : y = 0 := congrArg Complex.im h0
      rw [h0]
      simp [hx, hy]
    · have hne : Complex.abs ⟨x, y⟩ ≠ 0 := (map_ne_zero Complex.abs).mpr h0
      rw [Complex.cos_arg h0, Complex.sin_arg]
      refine ⟨?_, ?_, rfl⟩
      · field_simp
      · field_simp

/-- C13: for every vector `v` with `Norm(v) = 1`, with `(theta, phi) = v.ToSpherical()`,
`theta` is in `(-π, π]`, `phi` is in `[0, π]` and `FromSpherical(theta, phi) = v`. -/
theorem Vector.ToSpherical_round_trip (v : Vector) (hv : v.Norm = 1) :
    (-Real.pi < v.ToSpherical.1 ∧ v.ToSpherical.1 ≤ Real.pi) ∧
    (0 ≤ v.ToSpherical.2 ∧ v.ToSpherical.2 ≤ Real.pi) ∧
    Vector.FromSpherical v.ToSpherical.1 v.ToSpherical.2 = v := by
  refine ⟨⟨?_, ?_⟩, ⟨?_, ?_⟩, Vector.FromSpherical_ToSpherical_of_unit v hv⟩
  · exact Complex.neg_pi_lt_arg _
  · exact Complex.arg_le_pi _
  · exact Real.arccos_nonneg _
  · exact Real.arccos_le_pi _

/-- C13 at the pole `v = (0, 0, -1)`, where `x = y = 0`. -/
theorem Vector.ToSpherical_round_trip_witness :
    (-Real.pi < (Vector.ToSpherical ⟨0, 0, -1⟩).1 ∧
      (Vector.ToSpherical ⟨0, 0, -1⟩).1 ≤ Real.pi) ∧
    (0 ≤ (Vector.ToSpherical ⟨0, 0, -1⟩).2 ∧ (Vector.ToSpherical ⟨0, 0, -1⟩).2 ≤ Real.pi) ∧
    Vector.FromSpherical (Vector.ToSpherical ⟨0, 0, -1⟩).1 (Vector.ToSpherical ⟨0, 0, -1⟩).2
      = ⟨0, 0, -1⟩ :=
  Vector.ToSpherical_round_trip ⟨0, 0, -1⟩ (by simp [Vector.Norm, Vector.DotProduct])

/-! ### The loops of the `AreaSet` constructor -/

/-- The inner loop in closed form. -/
theorem AreaSet.cellLoop_eq (nbVPixels j localNbH : ℕ) :
    ∀ (n i : ℕ) (s : AreaSet), localNbH - i = n →
      AreaSet.cellLoop nbVPixels j localNbH i s
        = ⟨s.m_areas ++ (List.range' i n).map (AreaSet.newArea nbVPixels j localNbH),
           s.m_generatedAsQERCounter ++ List.replicate n 0⟩ := by
  intro n
  induction n with
  | zero =>
    intro i s h
    rw [AreaSet.cellLoop, if_neg (by omega)]
    simp
  | succ n ih =>
    intro i s h
    rw [AreaSet.cellLoop, if_pos (by omega), ih (i + 1) _ (by omega)]
    simp [List.range'_succ, List.replicate_succ]

/-- The inner loop started at `i = 0`. -/
theorem AreaSet.cellLoop_zero (nbVPixels j localNbH : ℕ) (s : AreaSet) :
    AreaSet.cellLoop nbVPixels j localNbH 0 s
      = ⟨s.m_areas ++ (List.range localNbH).map (AreaSet.newArea nbVPixels j localNbH),
         s.m_generatedAsQERCounter ++ List.replicate localNbH 0⟩ := by
  rw [AreaSet.cellLoop_eq nbVPixels j localNbH localNbH 0 s (by omega), List.range_eq_range']

/-- The outer loop in closed form: the rings `j`, `j + 2`, ... below the bound are
appended in turn. -/
theorem AreaSet.ringLoop_areas (nbHPixels nbVPixels : ℕ) :
    ∀ (n j : ℕ) (s : AreaSet), (2 * nbVPixels % 2 ^ 32 - j + 1) / 2 = n →
      (AreaSet.ringLoop nbHPixels nbVPixels j s).m_areas
        = s.m_areas ++ (List.range n).flatMap
            (fun k => AreaSet.ringCells nbHPixels nbVPixels (j + 2 * k)) := by
  intro n
  induction n with
  | zero =>
    intro j s h
    rw [AreaSet.ringLoop, if_neg (by omega)]
    simp
  | succ n ih =>
    intro j s h
    rw [AreaSet.ringLoop, if_pos (by omega), ih (j + 2) _ (by omega), AreaSet.cellLoop_zero]
    rw [List.range_succ_eq_map]
    simp only [List.flatMap_cons, List.flatMap_map, List.append_assoc, AreaSet.ringCells,
      Nat.mul_zero, Nat.add_zero]
    congr 2
    apply List.flatMap_congr
    intro k _
    simp only [Function.comp, Nat.succ_eq_add_one]
    have : j + 2 + 2 * k = j + 2 * (k + 1) := by ring
    rw [this]

/-- The outer loop keeps the counters a sequence of zeros as long as the cells. -/
theorem AreaSet.ringLoop_counters (nbHPixels nbVPixels : ℕ) :
    ∀ (n j : ℕ) (s : AreaSet), (2 * nbVPixels % 2 ^ 32 - j + 1) / 2 = n →
      s.m_generatedAsQERCounter = List.replicate s.m_areas.length 0 →
      (AreaSet.ringLoop nbHPixels nbVPixels j s).m_generatedAsQERCounter
        = List.replicate (AreaSet.ringLoop nbHPixels nbVPixels j s).m_areas.length 0 := by
  intro n
  induction n with
  | zero =>
    intro j s h hs
    rw [AreaSet.ringLoop, if_neg (by omega)]
    exact hs
  | succ n ih =>
    intro j s h hs
    rw [AreaSet.ringLoop, if_pos (by omega)]
    apply ih (j + 2) _ (by omega)
    rw [AreaSet.cellLoop_zero]
    simp [hs, List.append_replicate_replicate]

/-- The cells of a constructed `AreaSet`: the rings `j = 1, 3, 5, ...` below the bound
`2*nbVPixels` (formed in `unsigned`), one after the other. -/
theorem AreaSet.ctor_areas (nbHPixels nbVPixels : ℕ) :
    (AreaSet.ctor nbHPixels nbVPixels).m_areas
      = (List.range (2 * nbVPixels % 2 ^ 32 / 2)).flatMap
          (fun k => AreaSet.ringCells nbHPixels nbVPixels (1 + 2 * k)) := by
  unfold AreaSet.ctor
  rw [AreaSet.ringLoop_areas nbHPixels nbVPixels (2 * nbVPixels % 2 ^ 32 / 2) 1 _ (by omega)]
  simp

/-- The counters of a constructed `AreaSet`: as many zeros as there are cells. -/
theorem AreaSet.ctor_counters (nbHPixels nbVPixels : ℕ) :
    (AreaSet.ctor nbHPixels nbVPixels).m_generatedAsQERCounter
      = List.replicate (AreaSet.ctor nbHPixels nbVPixels).m_areas.length 0 := by
  unfold AreaSet.ctor
  exact AreaSet.ringLoop_counters nbHPixels nbVPixels _ 1 _ rfl rfl

/-- The square root of two lies between `1.41` and `1.42`. -/
theorem sqrt_two_bounds : (1.41 : ℝ) < Real.sqrt 2 ∧ Real.sqrt 2 < 1.42 := by
  constructor
  · rw [Real.lt_sqrt (by norm_num)]
    norm_num
  · rw [Real.sqrt_lt' (by norm_num)]
    norm_num

/-- The sine of the two ring centres of `AreaSet(4, 2)`. -/
theorem AreaSet.sin_ring_4_2 :
    Real.sin (((1 : ℕ) : ℝ) * PI / ((2 * 2 % 2 ^ 32 : ℕ) : ℝ)) = Real.sqrt 2 / 2 ∧
    Real.sin (((1 + 2 * 1 : ℕ) : ℝ) * PI / ((2 * 2 % 2 ^ 32 : ℕ) : ℝ)) = Real.sqrt 2 / 2 := by
  have h1 : (((1 : ℕ) : ℝ) * PI / ((2 * 2 % 2 ^ 32 : ℕ) : ℝ)) = Real.pi / 4 := by
    simp only [PI]
    norm_num
  have h3 : (((1 + 2 * 1 : ℕ) : ℝ) * PI / ((2 * 2 % 2 ^ 32 : ℕ) : ℝ))
      = Real.pi - Real.pi / 4 := by
    simp only [PI]
    norm_num
    ring
  rw [h1, h3, Real.sin_pi_sub, Real.sin_pi_div_four]
  exact ⟨rfl, rfl⟩

/-- Both rings of `AreaSet(4, 2)` hold three cells. -/
theorem AreaSet.localNbH_4_2 :
    AreaSet.localNbH 4 2 1 = 3 ∧ AreaSet.localNbH 4 2 (1 + 2 * 1) = 3 := by
  obtain ⟨s1, s3⟩ := AreaSet.sin_ring_4_2
  obtain ⟨lo, hi⟩ := sqrt_two_bounds
  unfold AreaSet.localNbH
  rw [s1, s3]
  have : ⌈((4 : ℕ) : ℝ) * (Real.sqrt 2 / 2)⌉₊ = 3 := by
    rw [Nat.ceil_eq_iff (by norm_num)]
    constructor
    · push_cast
      linarith
    · push_cast
      linarith
  exact ⟨this, this⟩

/-- The surface weights of `AreaSet(4, 2)`: six cells of weight
`2*PI*PI*(sqrt(2)/2)/6`, a real number (the divisor `3*2` is not zero). -/
theorem AreaSet.surfaces_4_2 :
    (AreaSet.ctor 4 2).m_areas.map Area.GetSurface
      = List.replicate 6
          (((2 * Real.pi * Real.pi * (Real.sqrt 2 / 2) / 6 : ℝ)) : EReal) := by
  obtain ⟨s1, s3⟩ := AreaSet.sin_ring_4_2
  obtain ⟨l1, l3⟩ := AreaSet.localNbH_4_2
  have hr : List.range (2 * 2 % 2 ^ 32 / 2) = [0, 1] := by decide
  have hd : 3 * 2 % 2 ^ 32 = 6 := by norm_num
  rw [AreaSet.ctor_areas, hr]
  simp only [List.flatMap_cons, List.flatMap_nil, List.append_nil, AreaSet.ringCells,
    Nat.mul_zero, Nat.add_zero, l1, l3, List.map_append, List.map_map]
  have hf1 : (Area.GetSurface ∘ AreaSet.newArea 2 1 3)
      = fun _ => (((2 * Real.pi * Real.pi * (Real.sqrt 2 / 2) / 6 : ℝ)) : EReal) := by
    funext i
    simp only [Function.comp, Area.GetSurface, AreaSet.newArea, AreaSet.surfaceQuotient, s1,
      hd]
    simp only [PI]
    norm_num
  have hf3 : (Area.GetSurface ∘ AreaSet.newArea 2 (1 + 2 * 1) 3)
      = fun _ => (((2 * Real.pi * Real.pi * (Real.sqrt 2 / 2) / 6 : ℝ)) : EReal) := by
    funext i
    simp only [Function.comp, Area.GetSurface, AreaSet.newArea, AreaSet.surfaceQuotient, s3,
      hd]
    simp only [PI]
    norm_num
  rw [hf1, hf3]
  simp [List.range_succ, List.replicate_succ]

/-- The sum of the surface weights of `AreaSet(4, 2)` is the real number
`sqrt(2) * π^2`. -/
theorem AreaSet.surface_sum_4_2 :
    ((AreaSet.ctor 4 2).m_areas.map Area.GetSurface).sum
      = ((Real.sqrt 2 * Real.pi ^ 2 : ℝ) : EReal) := by
  rw [AreaSet.surfaces_4_2]
  simp only [List.sum_replicate, ← EReal.coe_nsmul]
  congr 1
  simp only [nsmul_eq_mul]
  push_cast
  ring

/-- C14 (as stated) fails: `AreaSet(4, 2)` has cells, and the sum of their surface
weights, `sqrt(2) * π^2`, differs from `4π` by more than five percent of `4π`. -/
theorem AreaSet.surface_sum_4_2_counterexample :
    (AreaSet.ctor 4 2).m_areas ≠ [] ∧
    ((AreaSet.ctor 4 2).m_areas.map Area.GetSurface).sum
      = ((Real.sqrt 2 * Real.pi ^ 2 : ℝ) : EReal) ∧
    ¬ |(((AreaSet.ctor 4 2).m_areas.map Area.GetSurface).sum).toReal - 4 * Real.pi|
        ≤ 0.05 * (4 * Real.pi) := by
  obtain ⟨lo, hi⟩ := sqrt_two_bounds
  have p1 := Real.pi_gt_d2
  refine ⟨?_, AreaSet.surface_sum_4_2, ?_⟩
  · intro h
    have hl := congrArg List.length AreaSet.surfaces_4_2
    rw [h] at hl
    simp at hl
  · rw [AreaSet.surface_sum_4_2, EReal.toReal_coe, not_le]
    have hpos : 0 < Real.sqrt 2 * Real.pi ^ 2 - 4 * Real.pi := by nlinarith
    rw [abs_of_pos hpos]
    nlinarith

/-- C14 (amended): `AreaSet(4, 2)` contains at least one cell (six of them), the sum
of the surface weights of its cells is `sqrt(2) * π^2`, and it approximates `4π`
within twelve percent: `|sum - 4π| <= 0.12 * 4π`. -/
theorem AreaSet.surface_sum_4_2_within :
    (AreaSet.ctor 4 2).m_areas ≠ [] ∧
    (AreaSet.ctor 4 2).m_areas.length = 6 ∧
    ((AreaSet.ctor 4 2).m_areas.map Area.GetSurface).sum
      = ((Real.sqrt 2 * Real.pi ^ 2 : ℝ) : EReal) ∧
    |(((AreaSet.ctor 4 2).m_areas.map Area.GetSurface).sum).toReal - 4 * Real.pi|
      ≤ 0.12 * (4 * Real.pi) := by
  obtain ⟨lo, hi⟩ := sqrt_two_bounds
  have p1 := Real.pi_gt_d2
  have p2 := Real.pi_lt_d2
  have hlen : (AreaSet.ctor 4 2).m_areas.length = 6 := by
    have hl := congrArg List.length AreaSet.surfaces_4_2
    simpa using hl
  refine ⟨?_, hlen, AreaSet.surface_sum_4_2, ?_⟩
  · intro h
    rw [h] at hlen
    simp at hlen
  · rw [AreaSet.surface_sum_4_2, EReal.toReal_coe]
    have hpos : 0 < Real.sqrt 2 * Real.pi ^ 2 - 4 * Real.pi := by nlinarith
    rw [abs_of_pos hpos]
    nlinarith

/-! ### Rings of a constructed `AreaSet` -/

/-- Below `2^31` the bound `2*nbVPixels` of the outer loop does not wrap. -/
theorem AreaSet.bound_eq (nbVPixels : ℕ) (hV : nbVPixels < 2 ^ 31) :
    2 * nbVPixels % 2 ^ 32 = 2 * nbVPixels :=
  Nat.mod_eq_of_lt (by omega)

/-- Below `2^31` rings the ring centre and the cell count of the code are those of
the spec. -/
theorem AreaSet.localNbH_eq_spec (nbHPixels nbVPixels j : ℕ) (hV : nbVPixels < 2 ^ 31) :
    (j : ℝ) * PI / ((2 * nbVPixels % 2 ^ 32 : ℕ) : ℝ) = AreaSet.specRingPhi nbVPixels j ∧
    AreaSet.localNbH nbHPixels nbVPixels j = AreaSet.specRingCount nbHPixels nbVPixels j := by
  have h : (j : ℝ) * PI / ((2 * nbVPixels % 2 ^ 32 : ℕ) : ℝ)
      = AreaSet.specRingPhi nbVPixels j := by
    rw [AreaSet.bound_eq nbVPixels hV]
    simp [AreaSet.specRingPhi, PI]
  refine ⟨h, ?_⟩
  unfold AreaSet.localNbH AreaSet.specRingCount
  rw [h]

/-- The ring phis and counts of the spec for `AreaSet(4, 2)`. -/
theorem AreaSet.spec_4_2 :
    AreaSet.specRingCount 4 2 (2 * 0 + 1) = 3 ∧ AreaSet.specRingCount 4 2 (2 * 1 + 1) = 3 := by
  obtain ⟨l1, l3⟩ := AreaSet.localNbH_4_2
  obtain ⟨-, e1⟩ := AreaSet.localNbH_eq_spec 4 2 1 (by norm_num)
  obtain ⟨-, e3⟩ := AreaSet.localNbH_eq_spec 4 2 (1 + 2 * 1) (by norm_num)
  exact ⟨e1 ▸ l1, e3 ▸ l3⟩

/-- The ring `j = 15` of `AreaSet(2, 9)`: the exact product `2*sin(15π/18)` is `1`
and the ring holds one cell over exact real arithmetic; a product that exceeds `1` by
any positive amount up to `1`, as the double product of the code does, has ceiling
two. -/
theorem AreaSet.localNbH_2_9_15 :
    Real.sin (((15 : ℕ) : ℝ) * PI / ((2 * 9 % 2 ^ 32 : ℕ) : ℝ)) = 1 / 2 ∧
    AreaSet.localNbH 2 9 15 = 1 ∧
    ∀ e : ℝ, 0 < e → e ≤ 1 → ⌈((2 : ℕ) : ℝ) * (1 / 2) + e⌉₊ = 2 := by
  have hphi : (((15 : ℕ) : ℝ) * PI / ((2 * 9 % 2 ^ 32 : ℕ) : ℝ))
      = Real.pi - Real.pi / 6 := by
    simp only [PI]
    norm_num
    ring
  have hsin : Real.sin (((15 : ℕ) : ℝ) * PI / ((2 * 9 % 2 ^ 32 : ℕ) : ℝ)) = 1 / 2 := by
    rw [hphi, Real.sin_pi_sub, Real.sin_pi_div_six]
  refine ⟨hsin, ?_, ?_⟩
  · unfold AreaSet.localNbH
    rw [hsin, Nat.ceil_eq_iff (by norm_num)]
    constructor <;> norm_num
  · intro e h0 h1
    rw [Nat.ceil_eq_iff (by norm_num)]
    constructor
    · push_cast
      linarith
    · push_cast
      linarith

/-- Every cell of a constructed `AreaSet` is `newArea` for a ring `j` with
`0 < j < 2*nbVPixels` (the bound formed in `unsigned`) and an index `i` below the cell
count `localNbH` of the ring. -/
theorem AreaSet.mem_ctor_areas (nbHPixels nbVPixels : ℕ) (a : Area)
    (ha : a ∈ (AreaSet.ctor nbHPixels nbVPixels).m_areas) :
    ∃ j i, 0 < j ∧ j < 2 * nbVPixels % 2 ^ 32 ∧
      i < AreaSet.localNbH nbHPixels nbVPixels j ∧
      a = AreaSet.newArea nbVPixels j (AreaSet.localNbH nbHPixels nbVPixels j) i := by
  rw [AreaSet.ctor_areas, List.mem_flatMap] at ha
  obtain ⟨k, hk, hmem⟩ := ha
  rw [List.mem_range] at hk
  unfold AreaSet.ringCells at hmem
  rw [List.mem_map] at hmem
  obtain ⟨i, hi, rfl⟩ := hmem
  rw [List.mem_range] at hi
  exact ⟨1 + 2 * k, i, by omega, by omega, hi, rfl⟩

/-- The centre `j*PI/(2*nbVPixels)` of a ring of the code lies strictly between `0`
and `π`, whether the bound wraps or not. -/
theorem AreaSet.ring_phi_range (nbVPixels j : ℕ) (h0 : 0 < j)
    (h1 : j < 2 * nbVPixels % 2 ^ 32) :
    0 < (j : ℝ) * PI / ((2 * nbVPixels % 2 ^ 32 : ℕ) : ℝ) ∧
    (j : ℝ) * PI / ((2 * nbVPixels % 2 ^ 32 : ℕ) : ℝ) < Real.pi := by
  have hpi := Real.pi_pos
  have hj0 : (0 : ℝ) < (j : ℝ) := by exact_mod_cast h0
  have hj1 : (j : ℝ) < ((2 * nbVPixels % 2 ^ 32 : ℕ) : ℝ) := by exact_mod_cast h1
  have hB : (0 : ℝ) < ((2 * nbVPixels % 2 ^ 32 : ℕ) : ℝ) := by linarith
  unfold PI
  constructor
  · positivity
  · rw [div_lt_iff₀ hB]
    nlinarith

/-- The `theta` of a cell with index `i` below `localNbH` lies in `[-π, π)`, whether
the product `i*2` wraps or not. -/
theorem AreaSet.newArea_theta_range (nbVPixels j localNbH i : ℕ) (hi : i < localNbH) :
    -Real.pi ≤ (AreaSet.newArea nbVPixels j localNbH i).m_theta ∧
    (AreaSet.newArea nbVPixels j localNbH i).m_theta < Real.pi := by
  have hpi := Real.pi_pos
  have hL : (0 : ℝ) < (localNbH : ℝ) := by exact_mod_cast (by omega : 0 < localNbH)
  have hm : i * 2 % 2 ^ 32 < 2 * localNbH := by
    have := Nat.mod_le (i * 2) (2 ^ 32)
    omega
  have hm' : ((i * 2 % 2 ^ 32 : ℕ) : ℝ) < 2 * (localNbH : ℝ) := by exact_mod_cast hm
  have h0 : (0 : ℝ) ≤ ((i * 2 % 2 ^ 32 : ℕ) : ℝ) := Nat.cast_nonneg _
  simp only [AreaSet.newArea, PI]
  constructor
  · have : 0 ≤ ((i * 2 % 2 ^ 32 : ℕ) : ℝ) * Real.pi / (localNbH : ℝ) := by positivity
    linarith
  · have : ((i * 2 % 2 ^ 32 : ℕ) : ℝ) * Real.pi / (localNbH : ℝ) < 2 * Real.pi := by
      rw [div_lt_iff₀ hL]
      nlinarith
    linarith

/-- The cell count `localNbH` of a ring is at most `nbHPixels`. -/
theorem AreaSet.localNbH_le (nbHPixels nbVPixels j : ℕ) :
    AreaSet.localNbH nbHPixels nbVPixels j ≤ nbHPixels := by
  unfold AreaSet.localNbH
  apply Nat.ceil_le.mpr
  have hs := Real.sin_le_one ((j : ℝ) * PI / ((2 * nbVPixels % 2 ^ 32 : ℕ) : ℝ))
  have hH : (0 : ℝ) ≤ (nbHPixels : ℝ) := Nat.cast_nonneg _
  nlinarith

/-- The surface weight of a cell of a ring `j` with `0 < j < 2*nbVPixels` is
positive: a positive real when the divisor `localNbH*nbVPixels` is not zero in
`unsigned`, and `+∞` when it wraps to zero, the numerator being positive. -/
theorem AreaSet.newArea_surface_pos (nbVPixels j localNbH i : ℕ) (h0 : 0 < j)
    (h1 : j < 2 * nbVPixels % 2 ^ 32) :
    0 < (AreaSet.newArea nbVPixels j localNbH i).m_surface := by
  obtain ⟨p0, p1⟩ := AreaSet.ring_phi_range nbVPixels j h0 h1
  have hs := Real.sin_pos_of_pos_of_lt_pi p0 p1
  have hpi := Real.pi_pos
  have hnum : 0 < 2 * PI * PI
      * Real.sin ((j : ℝ) * PI / ((2 * nbVPixels % 2 ^ 32 : ℕ) : ℝ)) := by
    unfold PI at hs ⊢
    positivity
  simp only [AreaSet.newArea, AreaSet.surfaceQuotient]
  by_cases hD : localNbH * nbVPixels % 2 ^ 32 = 0
  · rw [if_pos hD, if_pos hnum]
    exact EReal.zero_lt_top
  · rw [if_neg hD, EReal.coe_pos]
    have hDpos : (0 : ℝ) < ((localNbH * nbVPixels % 2 ^ 32 : ℕ) : ℝ) := by
      exact_mod_cast Nat.pos_of_ne_zero hD
    positivity

/-- C16: for all `nbHPixels` and `nbVPixels`, every `Area` stored in
`AreaSet(nbHPixels, nbVPixels)` satisfies `-π <= theta < π` and `0 <= phi <= π` and has
a strictly positive surface weight (`+∞` when the divisor `localNbH*nbVPixels` wraps to
zero in `unsigned`). -/
theorem AreaSet.ctor_area_invariant (nbHPixels nbVPixels : ℕ) :
    ∀ a ∈ (AreaSet.ctor nbHPixels nbVPixels).m_areas,
      (-Real.pi ≤ a.m_theta ∧ a.m_theta < Real.pi) ∧
      (0 ≤ a.m_phi ∧ a.m_phi ≤ Real.pi) ∧
      0 < a.m_surface := by
  intro a ha
  obtain ⟨j, i, h0, h1, hi, rfl⟩ := AreaSet.mem_ctor_areas nbHPixels nbVPixels a ha
  obtain ⟨p0, p1⟩ := AreaSet.ring_phi_range nbVPixels j h0 h1
  exact ⟨AreaSet.newArea_theta_range nbVPixels j _ i hi, ⟨le_of_lt p0, le_of_lt p1⟩,
    AreaSet.newArea_surface_pos nbVPixels j _ i h0 h1⟩

/-- A cell of a ring belongs to the constructed `AreaSet`. -/
theorem AreaSet.newArea_mem_ctor (nbHPixels nbVPixels k i : ℕ)
    (hk : k < 2 * nbVPixels % 2 ^ 32 / 2)
    (hi : i < AreaSet.localNbH nbHPixels nbVPixels (1 + 2 * k)) :
    AreaSet.newArea nbVPixels (1 + 2 * k) (AreaSet.localNbH nbHPixels nbVPixels (1 + 2 * k)) i
      ∈ (AreaSet.ctor nbHPixels nbVPixels).m_areas := by
  rw [AreaSet.ctor_areas, List.mem_flatMap]
  refine ⟨k, List.mem_range.mpr hk, ?_⟩
  unfold AreaSet.ringCells
  exact List.mem_map.mpr ⟨i, List.mem_range.mpr hi, rfl⟩

/-- The first cell of `AreaSet(4, 2)`. -/
theorem AreaSet.first_cell_4_2 : AreaSet.newArea 2 1 3 0 ∈ (AreaSet.ctor 4 2).m_areas := by
  have h := AreaSet.newArea_mem_ctor 4 2 0 0 (by norm_num)
    (by rw [Nat.mul_zero, Nat.add_zero, AreaSet.localNbH_4_2.1]; norm_num)
  rw [Nat.mul_zero, Nat.add_zero, AreaSet.localNbH_4_2.1] at h
  exact h

/-- C16 at the first cell of `AreaSet(4, 2)`, the cell `i = 0` of the ring `j = 1`. -/
theorem AreaSet.ctor_area_invariant_witness :
    (-Real.pi ≤ (AreaSet.newArea 2 1 3 0).m_theta ∧
      (AreaSet.newArea 2 1 3 0).m_theta < Real.pi) ∧
    (0 ≤ (AreaSet.newArea 2 1 3 0).m_phi ∧ (AreaSet.newArea 2 1 3 0).m_phi ≤ Real.pi) ∧
    0 < (AreaSet.newArea 2 1 3 0).m_surface :=
  AreaSet.ctor_area_invariant 4 2 (AreaSet.newArea 2 1 3 0) AreaSet.first_cell_4_2

/-- The ring `j = 1` of `AreaSet(3037000499, 2)` holds `2^31` cells. -/
theorem AreaSet.localNbH_large :
    AreaSet.localNbH 3037000499 2 (1 + 2 * 0) = 2147483648 := by
  have hs := AreaSet.sin_ring_4_2.1
  have lo : (4294967294 / 3037000499 : ℝ) < Real.sqrt 2 := by
    rw [Real.lt_sqrt (by norm_num)]
    norm_num
  have hi : Real.sqrt 2 ≤ (4294967296 / 3037000499 : ℝ) := by
    rw [Real.sqrt_le_left (by norm_num)]
    norm_num
  unfold AreaSet.localNbH
  rw [Nat.mul_zero, Nat.add_zero, hs, Nat.ceil_eq_iff (by norm_num)]
  rw [div_lt_iff₀ (by norm_num)] at lo
  rw [le_div_iff₀ (by norm_num)] at hi
  constructor
  · push_cast
    linarith
  · push_cast
    linarith

/-- A cell whose surface weight is infinite: in `AreaSet(3037000499, 2)` the ring
`j = 1` holds `2^31` cells, the divisor `localNbH*nbVPixels` wraps to `0` in `unsigned`
and the weight of the cells of the ring is `+∞`, which is positive. -/
theorem AreaSet.surface_wrapped_divisor :
    AreaSet.newArea 2 1 2147483648 0 ∈ (AreaSet.ctor 3037000499 2).m_areas ∧
    2147483648 * 2 % 2 ^ 32 = 0 ∧
    (AreaSet.newArea 2 1 2147483648 0).m_surface = ⊤ := by
  have hmem := AreaSet.newArea_mem_ctor 3037000499 2 0 0 (by norm_num)
    (by rw [AreaSet.localNbH_large]; norm_num)
  rw [AreaSet.localNbH_large, Nat.mul_zero, Nat.add_zero] at hmem
  have hz : 2147483648 * 2 % 2 ^ 32 = 0 := by norm_num
  refine ⟨hmem, hz, ?_⟩
  have hpos := AreaSet.newArea_surface_pos 2 1 2147483648 0 (by norm_num) (by norm_num)
  simp only [AreaSet.newArea, AreaSet.surfaceQuotient, hz, if_true] at hpos ⊢
  split
  · rfl
  · rename_i hn
    rw [if_neg hn] at hpos
    split at hpos
    · exact absurd hpos (not_lt.mpr bot_le)
    · exact absurd hpos (lt_irrefl _)

/-! ### `GetAreaIdInTile` -/

/-- The loop of `GetAreaIdInTile` on fewer than `2^32` cells, started at `i` with
`ans` collected: with more iterations allowed than cells left it ends, and it appends
to `ans` the ids from `i` on that pass the tile test, in increasing order. -/
theorem AreaSet.GetAreaIdInTileLoop_spec (s : AreaSet) (st et sp ep : ℝ)
    (hlen : s.m_areas.length < 2 ^ 32) :
    ∀ (n fuel i : ℕ) (ans : List ℕ), s.m_areas.length - i = n → i ≤ s.m_areas.length →
      n < fuel →
      ∃ tail, AreaSet.GetAreaIdInTileLoop s st et sp ep fuel i ans = some (ans ++ tail) ∧
        tail.Pairwise (· < ·) ∧ ∀ k, k ∈ tail ↔ (i ≤ k ∧ s.inTile st et sp ep k) := by
  intro n
  induction n with
  | zero =>
    intro fuel i ans hn hi hf
    cases fuel with
    | zero => omega
    | succ fuel =>
      refine ⟨[], ?_, List.Pairwise.nil, ?_⟩
      · rw [AreaSet.GetAreaIdInTileLoop, dif_neg (by omega), List.append_nil]
      · intro k
        constructor
        · intro hk
          cases hk
        · rintro ⟨hik, hlt, -⟩
          omega
  | succ n ih =>
    intro fuel i ans hn hi hf
    cases fuel with
    | zero => omega
    | succ fuel =>
      have hlt : i < s.m_areas.length := by omega
      have hmod : (i + 1) % 2 ^ 32 = i + 1 := Nat.mod_eq_of_lt (by omega)
      rw [AreaSet.GetAreaIdInTileLoop, dif_pos hlt, hmod]
      by_cases hc : s.m_areas[i].GetTheta ≥ st ∧ s.m_areas[i].GetTheta < et ∧
          s.m_areas[i].GetPhi ≥ sp ∧ s.m_areas[i].GetPhi < ep
      · rw [if_pos hc]
        obtain ⟨tail, h1, h2, h3⟩ := ih fuel (i + 1) (ans ++ [i]) (by omega) (by omega)
          (by omega)
        refine ⟨i :: tail, ?_, ?_, ?_⟩
        · rw [h1, List.append_assoc, List.singleton_append]
        · rw [List.pairwise_cons]
          refine ⟨?_, h2⟩
          intro a ha
          have := ((h3 a).mp ha).1
          omega
        · intro k
          rw [List.mem_cons, h3 k]
          constructor
          · rintro (rfl | ⟨hk, ht⟩)
            · exact ⟨le_refl _, hlt, hc⟩
            · exact ⟨by omega, ht⟩
          · rintro ⟨hk, ht⟩
            rcases Nat.eq_or_lt_of_le hk with h | h
            · exact Or.inl h.symm
            · exact Or.inr ⟨h, ht⟩
      · rw [if_neg hc]
        obtain ⟨tail, h1, h2, h3⟩ := ih fuel (i + 1) ans (by omega) (by omega) (by omega)
        refine ⟨tail, h1, h2, ?_⟩
        intro k
        rw [h3 k]
        constructor
        · rintro ⟨hk, ht⟩
          exact ⟨by omega, ht⟩
        · rintro ⟨hk, ht⟩
          refine ⟨?_, ht⟩
          rcases Nat.eq_or_lt_of_le hk with h | h
          · exfalso
            subst h
            obtain ⟨_, hcond⟩ := ht
            exact hc hcond
          · exact h

/-- C17 (amended): for every `AreaSet` with fewer than `2^32` cells and all
`startTheta`, `endTheta`, `startPhi`, `endPhi`, `GetAreaIdInTile` returns (with more
iterations allowed than there are cells) a strictly increasing list of cell ids such
that an id `i` is in the list if and only if `i` is below the number of cells and
`startTheta <= theta_i < endTheta` and `startPhi <= phi_i < endPhi`; the call leaves the
cells and the counters unchanged. -/
theorem AreaSet.GetAreaIdInTile_spec (s : AreaSet) (startTheta endTheta startPhi endPhi : ℝ)
    (fuel : ℕ) (hlen : s.m_areas.length < 2 ^ 32) (hfuel : s.m_areas.length < fuel) :
    ∃ ans, AreaSet.GetAreaIdInTile s startTheta endTheta startPhi endPhi fuel = some (s, ans) ∧
      ans.Pairwise (· < ·) ∧
      ∀ i, i ∈ ans ↔ s.inTile startTheta endTheta startPhi endPhi i := by
  obtain ⟨tail, h1, h2, h3⟩ := AreaSet.GetAreaIdInTileLoop_spec s startTheta endTheta startPhi
    endPhi hlen s.m_areas.length fuel 0 [] (by omega) (by omega) hfuel
  refine ⟨tail, ?_, h2, ?_⟩
  · unfold AreaSet.GetAreaIdInTile
    rw [h1]
    rfl
  · intro i
    rw [h3 i]
    exact ⟨fun h => h.2, fun h => ⟨Nat.zero_le _, h⟩⟩

/-- With `2^32` cells or more the loop of `GetAreaIdInTile` does not end: the counter
`i` wraps in `unsigned` and stays below the number of cells. -/
theorem AreaSet.GetAreaIdInTileLoop_none (s : AreaSet) (st et sp ep : ℝ)
    (hlen : 2 ^ 32 ≤ s.m_areas.length) :
    ∀ (fuel i : ℕ) (ans : List ℕ), i < 2 ^ 32 →
      AreaSet.GetAreaIdInTileLoop s st et sp ep fuel i ans = none := by
  intro fuel
  induction fuel with
  | zero =>
    intro i ans _
    rfl
  | succ fuel ih =>
    intro i ans hi
    have hlt : i < s.m_areas.length := by omega
    have hm : (i + 1) % 2 ^ 32 < 2 ^ 32 := Nat.mod_lt _ (by norm_num)
    rw [AreaSet.GetAreaIdInTileLoop, dif_pos hlt]
    split
    · exact ih _ _ hm
    · exact ih _ _ hm

/-- The `AreaSet(4, 2)` has six cells. -/
theorem AreaSet.length_4_2 : (AreaSet.ctor 4 2).m_areas.length = 6 := by
  have hl := congrArg List.length AreaSet.surfaces_4_2
  simpa using hl

/-- C17 (amended) at `AreaSet(4, 2)` and the tile `[-π, 0) x [0, π/2)`, with seven
iterations allowed for six cells. -/
theorem AreaSet.GetAreaIdInTile_spec_witness :
    ∃ ans, AreaSet.GetAreaIdInTile (AreaSet.ctor 4 2) (-Real.pi) 0 0 (Real.pi / 2) 7
        = some (AreaSet.ctor 4 2, ans) ∧
      ans.Pairwise (· < ·) ∧
      ∀ i, i ∈ ans ↔ (AreaSet.ctor 4 2).inTile (-Real.pi) 0 0 (Real.pi / 2) i :=
  AreaSet.GetAreaIdInTile_spec (AreaSet.ctor 4 2) (-Real.pi) 0 0 (Real.pi / 2) 7
    (by rw [AreaSet.length_4_2]; norm_num) (by rw [AreaSet.length_4_2]; norm_num)

/-- The cell count of a ring of the code is at least one when `nbHPixels` is. -/
theorem AreaSet.localNbH_pos (nbHPixels nbVPixels j : ℕ) (hH : 1 ≤ nbHPixels) (h0 : 0 < j)
    (h1 : j < 2 * nbVPixels % 2 ^ 32) : 1 ≤ AreaSet.localNbH nbHPixels nbVPixels j := by
  obtain ⟨p0, p1⟩ := AreaSet.ring_phi_range nbVPixels j h0 h1
  have hs := Real.sin_pos_of_pos_of_lt_pi p0 p1
  have hH0 : (0 : ℝ) < (nbHPixels : ℝ) := by exact_mod_cast (by omega : 0 < nbHPixels)
  unfold AreaSet.localNbH
  exact Nat.ceil_pos.mpr (by positivity)

/-- The `AreaSet(4294967295, 3)` has `2^32` cells or more: its equator ring alone
holds `4294967295` cells and its first ring at least one. -/
theorem AreaSet.length_large : 2 ^ 32 ≤ (AreaSet.ctor 4294967295 3).m_areas.length := by
  have hr : List.range (2 * 3 % 2 ^ 32 / 2) = [0, 1, 2] := by decide
  have h1 := AreaSet.localNbH_pos 4294967295 3 (1 + 2 * 0) (by norm_num) (by norm_num)
    (by norm_num)
  have h3 : AreaSet.localNbH 4294967295 3 (1 + 2 * 1) = 4294967295 := by
    have hphi : (((1 + 2 * 1 : ℕ) : ℝ) * PI / ((2 * 3 % 2 ^ 32 : ℕ) : ℝ)) = Real.pi / 2 := by
      simp only [PI]
      norm_num
      ring
    unfold AreaSet.localNbH
    rw [hphi, Real.sin_pi_div_two, mul_one, Nat.ceil_natCast]
  rw [AreaSet.ctor_areas, hr]
  simp only [List.flatMap_cons, List.flatMap_nil, List.append_nil, List.length_append,
    AreaSet.ringCells, List.length_map, List.length_range, h3]
  omega

/-- C17 (as stated) fails at `AreaSet(4294967295, 3)`, which has `2^32` cells or more:
the counter `unsigned i` wraps before it reaches `m_areas.size()`, so the loop never
ends and the call returns no list, however many iterations are allowed. -/
theorem AreaSet.GetAreaIdInTile_counterexample :
    2 ^ 32 ≤ (AreaSet.ctor 4294967295 3).m_areas.length ∧
    ¬ ∃ fuel r, AreaSet.GetAreaIdInTile (AreaSet.ctor 4294967295 3) 0 0 0 0 fuel = some r := by
  refine ⟨AreaSet.length_large, ?_⟩
  rintro ⟨fuel, r, h⟩
  unfold AreaSet.GetAreaIdInTile at h
  rw [AreaSet.GetAreaIdInTileLoop_none _ 0 0 0 0 AreaSet.length_large fuel 0 [] (by norm_num)]
    at h
  cases h

/-! ### `AddUseAsQer` -/

/-- C18: after construction the counters are as many as the cells and every counter
is `0`; and for every `AreaSet` whose two sequences have the same length and every id
below the number of cells, `AddUseAsQer(id)` replaces `counter[id]` by
`(counter[areaId] + 1) mod 2^32`, leaves every other counter unchanged, leaves the cells
unchanged and keeps both lengths equal. -/
theorem AreaSet.AddUseAsQer_spec (nbHPixels nbVPixels : ℕ) (s : AreaSet) (areaId : ℕ)
    (hlen : s.m_areas.length = s.m_generatedAsQERCounter.length)
    (hid : areaId < s.m_areas.length) :
    ((AreaSet.ctor nbHPixels nbVPixels).m_generatedAsQERCounter.length
        = (AreaSet.ctor nbHPixels nbVPixels).m_areas.length ∧
      ∀ c ∈ (AreaSet.ctor nbHPixels nbVPixels).m_generatedAsQERCounter, c = 0) ∧
    (∃ c, s.m_generatedAsQERCounter[areaId]? = some c ∧
      (s.AddUseAsQer areaId).m_generatedAsQERCounter[areaId]? = some ((c + 1) % 2 ^ 32)) ∧
    (∀ k, k ≠ areaId →
      (s.AddUseAsQer areaId).m_generatedAsQERCounter[k]? = s.m_generatedAsQERCounter[k]?) ∧
    (s.AddUseAsQer areaId).m_areas = s.m_areas ∧
    (s.AddUseAsQer areaId).m_areas.length = (s.AddUseAsQer areaId).m_generatedAsQERCounter.length := by
  have hid2 : areaId < s.m_generatedAsQERCounter.length := by omega
  have hget : s.m_generatedAsQERCounter[areaId]? = some s.m_generatedAsQERCounter[areaId] :=
    List.getElem?_eq_getElem hid2
  have hadd : s.AddUseAsQer areaId = ⟨s.m_areas,
      s.m_generatedAsQERCounter.set areaId
        ((s.m_generatedAsQERCounter[areaId] + 1) % 2 ^ 32)⟩ := by
    unfold AreaSet.AddUseAsQer
    rw [hget]
  refine ⟨⟨?_, ?_⟩, ⟨s.m_generatedAsQERCounter[areaId], hget, ?_⟩, ?_, ?_, ?_⟩
  · rw [AreaSet.ctor_counters, List.length_replicate]
  · intro c hc
    rw [AreaSet.ctor_counters] at hc
    exact (List.mem_replicate.mp hc).2
  · rw [hadd]
    exact List.getElem?_set_self hid2
  · intro k hk
    rw [hadd]
    exact List.getElem?_set_ne (Ne.symm hk)
  · rw [hadd]
  · rw [hadd]
    simp only [List.length_set]
    exact hlen

/-- C18 at `AreaSet(4, 2)` and the id `0`. -/
theorem AreaSet.AddUseAsQer_spec_witness :
    ((AreaSet.ctor 4 2).m_generatedAsQERCounter.length = (AreaSet.ctor 4 2).m_areas.length ∧
      ∀ c ∈ (AreaSet.ctor 4 2).m_generatedAsQERCounter, c = 0) ∧
    (∃ c, (AreaSet.ctor 4 2).m_generatedAsQERCounter[0]? = some c ∧
      ((AreaSet.ctor 4 2).AddUseAsQer 0).m_generatedAsQERCounter[0]?
        = some ((c + 1) % 2 ^ 32)) ∧
    (∀ k, k ≠ 0 →
      ((AreaSet.ctor 4 2).AddUseAsQer 0).m_generatedAsQERCounter[k]?
        = (AreaSet.ctor 4 2).m_generatedAsQERCounter[k]?) ∧
    ((AreaSet.ctor 4 2).AddUseAsQer 0).m_areas = (AreaSet.ctor 4 2).m_areas ∧
    ((AreaSet.ctor 4 2).AddUseAsQer 0).m_areas.length
      = ((AreaSet.ctor 4 2).AddUseAsQer 0).m_generatedAsQERCounter.length :=
  AreaSet.AddUseAsQer_spec 4 2 (AreaSet.ctor 4 2) 0
    (by rw [AreaSet.ctor_counters, List.length_replicate])
    (by rw [AreaSet.length_4_2]; norm_num)

end IMT
